import Mathlib

/-!
# Verification of the caption parsing / reconstruction pipeline

A shallow embedding of the caption utilities of the repository
(`utils.py`, `caption_downloader.py`) and proofs about them.

Modelling conventions, used consistently below:

* Python strings are `String` (a list of characters); the whitespace
  class is the ASCII subset (space, tab, newline, carriage return,
  vertical tab, form feed) of Python's str-level whitespace.
* Times that the source keeps as `float` seconds are modelled exactly:
  internally as integer *milliseconds* (`ℤ`), since every timestamp of
  the pipeline has the shape `HH:MM:SS[.mmm]`; the seconds value
  `h*3600 + m*60 + s + ms/1000` of the source is recovered as an exact
  rational by dividing by 1000.  The source's literal thresholds
  `0.01`, `0.5`, `0.2`, `0.15` seconds become `10`, `500`, `200`, `150`
  milliseconds.
* `int(...)` on a string is modelled on the grammar Python accepts for
  ASCII input: surrounding whitespace, an optional sign, then decimal
  digits with optional single grouping underscores between digits.
* `html.unescape` is modelled on the named character references that
  can appear in caption files (`&amp; &lt; &gt; &quot; &#39; &apos;`);
  every theorem below uses it either on text containing no `&` at all
  (where the full function is also the identity) or on fixed concrete
  strings.
-/

set_option linter.unusedVariables false

namespace YTCap

/-- ASCII whitespace as recognised by Python's `str.strip()` / `str.split()`. -/
def isPyWs (c : Char) : Bool :=
  c = ' ' || c = '\t' || c = '\n' || c = '\r' || c = '\x0b' || c = '\x0c'

/-- ASCII decimal digit. -/
def isDigitC (c : Char) : Bool :=
  '0' ≤ c && c ≤ '9'

/-- Python `str.strip()` on a character list. -/
def pyStripL (l : List Char) : List Char :=
  ((l.dropWhile isPyWs).reverse.dropWhile isPyWs).reverse

/-- Python `str.strip()`. -/
def pyStrip (s : String) : String :=
  ⟨pyStripL s.data⟩

/-- Python `s.split(sep)` for a one-character separator: keeps empty fields,
`"".split(c) = [""]`. -/
def splitChar (sep : Char) : List Char → List (List Char)
  | [] => [[]]
  | c :: rest =>
    if c = sep then [] :: splitChar sep rest
    else
      match splitChar sep rest with
      | [] => [[c]]
      | h :: t => (c :: h) :: t

/-- Python `s.split("\n\n")` (the only multi-character split the source uses):
greedy leftmost, non-overlapping. -/
def splitNlNl : List Char → List (List Char)
  | [] => [[]]
  | '\n' :: '\n' :: rest => [] :: splitNlNl rest
  | c :: rest =>
    match splitNlNl rest with
    | [] => [[c]]
    | h :: t => (c :: h) :: t

/-- Python whitespace-split `s.split()` (no argument): maximal runs of
non-whitespace characters; empty fields never occur. -/
def pyWordsAux (acc : List Char) : List Char → List (List Char)
  | [] => if acc = [] then [] else [acc.reverse]
  | c :: rest =>
    if isPyWs c then
      if acc = [] then pyWordsAux [] rest else acc.reverse :: pyWordsAux [] rest
    else pyWordsAux (c :: acc) rest

/-- Python `s.split()`. -/
def pyWords (l : List Char) : List (List Char) :=
  pyWordsAux [] l

/-- `sep.join(xs)`. -/
def joinWith (sep : List Char) : List (List Char) → List Char
  | [] => []
  | [x] => x
  | x :: xs => x ++ sep ++ joinWith sep xs

/-- `' '.join(s.split())`: the whitespace normalisation the deduplicator
applies before comparing texts. -/
def normWsL (l : List Char) : List Char :=
  joinWith [' '] (pyWords l)

/-- Python `a.startswith(b)` (argument order: first the candidate prefix). -/
def startsWithL : List Char → List Char → Bool
  | [], _ => true
  | _ :: _, [] => false
  | c :: p, d :: l => c = d && startsWithL p l

/-- Python `a.endswith(b)`. -/
def endsWithL (p l : List Char) : Bool :=
  startsWithL p.reverse l.reverse

/-- Python `needle in hay` for strings: substring occurrence
(the empty needle occurs in everything). -/
def isSubL : List Char → List Char → Bool
  | p, [] => p.isEmpty
  | p, c :: rest => startsWithL p (c :: rest) || isSubL p rest

/-- Decimal digits with optional single grouping underscores between them
(the tail of Python's `int` grammar), accumulating the value. -/
def intDigitsAux : ℕ → List Char → Option ℕ
  | acc, [] => some acc
  | acc, c :: rest =>
    if isDigitC c then intDigitsAux (10 * acc + (c.toNat - '0'.toNat)) rest
    else if c = '_' then
      match rest with
      | [] => none
      | d :: rest2 =>
        if isDigitC d then intDigitsAux (10 * acc + (d.toNat - '0'.toNat)) rest2 else none
    else none

/-- One or more digits (with grouping underscores strictly inside). -/
def pyIntDigits : List Char → Option ℕ
  | [] => none
  | c :: rest =>
    if isDigitC c then intDigitsAux (c.toNat - '0'.toNat) rest else none

/-- Python `int(s)` for ASCII input: strip whitespace, optional sign, digits. -/
def pyInt (l : List Char) : Option ℤ :=
  match pyStripL l with
  | [] => none
  | c :: r =>
    if c = '+' then (pyIntDigits r).map (fun n => (n : ℤ))
    else if c = '-' then (pyIntDigits r).map (fun n => -(n : ℤ))
    else (pyIntDigits (c :: r)).map (fun n => (n : ℤ))

/-- `_timestamp_to_seconds` of `utils.py`, in exact integer milliseconds:
split on `:` into exactly three components, parse hours and minutes as
integers, split the third component at `.` into seconds and optional
milliseconds (a missing fractional part defaults to 0; fields after a
second `.` are ignored, as in the source).  `none` models the function
raising `ValueError`. -/
def timestampToMillis (ts : String) : Option ℤ :=
  match splitChar ':' ts.data with
  | [p0, p1, p2] =>
    match pyInt p0, pyInt p1 with
    | some h, some m =>
      match splitChar '.' p2 with
      | s0 :: restSp =>
        match pyInt s0 with
        | some s =>
          match restSp with
          | [] => some (1000 * (3600 * h + 60 * m + s))
          | ms0 :: _ => (pyInt ms0).map (fun ms => 1000 * (3600 * h + 60 * m + s) + ms)
        | none => none
      | [] => none
    | _, _ => none
  | _ => none

/-- `_timestamp_to_seconds` of `utils.py` as a seconds value: the source's
`hours*3600 + minutes*60 + seconds + milliseconds/1000.0`, represented as an
exact rational. -/
def timestamp_to_seconds (ts : String) : Option ℚ :=
  (timestampToMillis ts).map (fun z : ℤ => (z : ℚ) / 1000)

/-- A caption record `{'start': ..., 'end': ..., 'text': ...}`.  The source's
`end` key is the field `end_` (`end` is reserved in Lean). -/
structure RawCaption where
  start : String
  end_ : String
  text : String
deriving DecidableEq

/-- A record of the deduplicator's working list, carrying the converted
times (`start_sec`, `end_sec`, `duration` of the source, in milliseconds). -/
structure ProcCaption where
  start : String
  end_ : String
  text : String
  startMs : ℤ
  endMs : ℤ
  durationMs : ℤ
deriving DecidableEq

/-- The validation/conversion loop at the top of
`_deduplicate_overlapping_captions`: strip the text, skip records whose
stripped text is empty, skip records whose timestamps fail to parse, and
attach the numeric times.  (The source's checks that the element is a dict
with the three keys are vacuous in the typed model.) -/
def processedOf (captions : List RawCaption) : List ProcCaption :=
  captions.filterMap fun cap =>
    let text := pyStrip cap.text
    if text = "" then none
    else
      match timestampToMillis cap.start, timestampToMillis cap.end_ with
      | some ss, some es => some ⟨cap.start, cap.end_, text, ss, es, es - ss⟩
      | _, _ => none

/-- The first sort key of the deduplicator:
`key=lambda x: (x['start_sec'], -len(x['text']))`, as a `≤`-like relation
(Python's `sorted` is stable, as is `List.insertionSort`). -/
def key1Le (a b : ProcCaption) : Prop :=
  a.startMs < b.startMs ∨ (a.startMs = b.startMs ∧ b.text.length ≤ a.text.length)

instance : DecidableRel key1Le := fun a b => by
  unfold key1Le; infer_instance

instance : IsTotal ProcCaption key1Le :=
  ⟨by intro a b; unfold key1Le; omega⟩

instance : IsTrans ProcCaption key1Le :=
  ⟨by intro a b c; unfold key1Le; omega⟩

/-- The final sort key of the deduplicator: `key=lambda x: x['start_sec']`. -/
def key2Le (a b : ProcCaption) : Prop :=
  a.startMs ≤ b.startMs

instance : DecidableRel key2Le := fun a b => by
  unfold key2Le; infer_instance

instance : IsTotal ProcCaption key2Le :=
  ⟨by intro a b; unfold key2Le; omega⟩

instance : IsTrans ProcCaption key2Le :=
  ⟨by intro a b c; unfold key2Le; omega⟩

/-- The six-case comparison of `current` against one previously accepted
record `prev` in `_deduplicate_overlapping_captions`.  Result:
`some false` — a case fired that drops `current` (`should_add = False`);
`some true` — a case fired that replaces `prev` by `current`
(cases 3 and 5; both build the replacement from `current`'s five/six fields,
case 3 omitting `duration`, which downstream code reads back with default
`end_sec - start_sec` — equal to `current`'s stored duration — so the
replacement is modelled as `current` itself);
`none` — no case fired, the loop moves to the next accepted record.
Thresholds are the source's `0.01`, `0.5`, `0.2`, `0.15` seconds in
milliseconds. -/
def caseAction (current prev : ProcCaption) : Option Bool :=
  let cn := normWsL current.text.data
  let pn := normWsL prev.text.data
  let hasOverlap : Bool := decide (max current.startMs prev.startMs < min current.endMs prev.endMs)
  let isAdjacent : Bool :=
    decide (|current.startMs - prev.endMs| < 10) || decide (|prev.startMs - current.endMs| < 10)
  let isClose : Bool :=
    decide (min |current.startMs - prev.endMs| |prev.startMs - current.endMs| < 500)
  if decide (cn = pn) && (hasOverlap || isAdjacent) then some false
  else if isSubL cn pn && (hasOverlap || isAdjacent || decide (current.durationMs < 200)) then
    some false
  else if isSubL pn cn && (hasOverlap || isAdjacent || decide (prev.durationMs < 200)) then
    some true
  else if decide (current.durationMs < 150) &&
      (decide (cn = pn) || isSubL cn pn || isSubL pn cn) && isClose then
    some false
  else if decide (pn ≠ []) && startsWithL pn cn && (isAdjacent || hasOverlap) then some true
  else if decide (pn ≠ []) && endsWithL pn cn &&
      (decide (cn.length < pn.length) && (isAdjacent || hasOverlap)) then
    some false
  else none

/-- The inner `for i, prev in enumerate(deduplicated)` loop: scan the accepted
records in order; the first record for which a case fires either leaves the
list unchanged (drop `current`) or replaces that record in place; if no case
fires for any record the result is `none` and the caller appends `current`. -/
def applyCases (current : ProcCaption) : List ProcCaption → Option (List ProcCaption)
  | [] => none
  | prev :: rest =>
    match caseAction current prev with
    | some false => some (prev :: rest)
    | some true => some (current :: rest)
    | none => (applyCases current rest).map (fun r => prev :: r)

/-- The outer `for current in processed` loop, carrying the accumulated
`deduplicated` list. -/
def dedupFold : List ProcCaption → List ProcCaption → List ProcCaption
  | acc, [] => acc
  | acc, c :: cs =>
    match applyCases c acc with
    | some acc2 => dedupFold acc2 cs
    | none => dedupFold (acc ++ [c]) cs

/-- `_deduplicate_overlapping_captions` of `utils.py`: validate and convert,
sort by `(start_sec, -len(text))`, run the pairwise case loop, sort the
result by `start_sec`, and project each survivor back to its
`{start, end, text}` fields. -/
def deduplicate_overlapping_captions (captions : List RawCaption) : List RawCaption :=
  if captions = [] then captions
  else
    (List.insertionSort key2Le
        (dedupFold [] (List.insertionSort key1Le (processedOf captions)))).map
      (fun c => ⟨c.start, c.end_, c.text⟩)

/-! ## Markup parsing (`parse_vtt_to_text`, `parse_srt_to_text`) -/

/-- `html.unescape`, modelled on the named character references listed in the
file header; a `&` that starts none of them is kept verbatim, and scanning
continues after each replacement (no rescanning), as in the source.  Written
with explicit fuel (one unit per emitted character) so the recursion is
structural; `length l` fuel always suffices. -/
def htmlUnescapeFuel : ℕ → List Char → List Char
  | 0, l => l
  | _ + 1, [] => []
  | fuel + 1, c :: rest =>
    if c = '&' then
      if startsWithL "amp;".data rest then '&' :: htmlUnescapeFuel fuel (rest.drop 4)
      else if startsWithL "lt;".data rest then '<' :: htmlUnescapeFuel fuel (rest.drop 3)
      else if startsWithL "gt;".data rest then '>' :: htmlUnescapeFuel fuel (rest.drop 3)
      else if startsWithL "quot;".data rest then '"' :: htmlUnescapeFuel fuel (rest.drop 5)
      else if startsWithL "#39;".data rest then '\'' :: htmlUnescapeFuel fuel (rest.drop 4)
      else if startsWithL "apos;".data rest then '\'' :: htmlUnescapeFuel fuel (rest.drop 5)
      else c :: htmlUnescapeFuel fuel rest
    else c :: htmlUnescapeFuel fuel rest

def htmlUnescape (l : List Char) : List Char :=
  htmlUnescapeFuel l.length l

/-- Whether `re` would match `[^>]+>` at the start of `rest` (the part of
`<[^>]+>` after the `<`): at least one non-`>` character, then a `>`. -/
def tagMatchable : List Char → Bool
  | [] => false
  | c :: r => c ≠ '>' && (c :: r).contains '>'

/-- Drop characters up to and including the first `>`. -/
def dropThroughGt : List Char → List Char
  | [] => []
  | '>' :: r => r
  | _ :: r => dropThroughGt r

/-- `re.sub(r'<[^>]+>', '', ...)`: leftmost non-overlapping removal of inline
tags.  Written with explicit fuel (one unit per character consumed) so the
recursion is structural; `length l` fuel always suffices. -/
def stripTagsFuel : ℕ → List Char → List Char
  | 0, l => l
  | _ + 1, [] => []
  | fuel + 1, '<' :: rest =>
    if tagMatchable rest then stripTagsFuel fuel (dropThroughGt rest)
    else '<' :: stripTagsFuel fuel rest
  | fuel + 1, c :: rest => c :: stripTagsFuel fuel rest

def stripTags (l : List Char) : List Char :=
  stripTagsFuel l.length l

/-- The finalisation applied to a VTT caption text before it is appended:
`html.unescape`, then tag stripping, then `strip()`. -/
def finalizeText (t : List Char) : String :=
  ⟨pyStripL (stripTags (htmlUnescape t))⟩

/-- Match one group `\d{2}:\d{2}:\d{2}[.,]\d{3}` at the head of the list,
returning the 12 matched characters and the remainder. -/
def matchTsGroup : List Char → Option (List Char × List Char)
  | a :: b :: ':' :: c :: d :: ':' :: e :: f :: sep :: g :: h :: i :: rest =>
    if isDigitC a && isDigitC b && isDigitC c && isDigitC d && isDigitC e && isDigitC f &&
        (sep = '.' || sep = ',') && isDigitC g && isDigitC h && isDigitC i then
      some ([a, b, ':', c, d, ':', e, f, sep, g, h, i], rest)
    else none
  | _ => none

/-- `group.replace(',', '.')` (normalising the millisecond separator). -/
def commaToDot (l : List Char) : List Char :=
  l.map (fun c => if c = ',' then '.' else c)

/-- `re.match` of the timestamp-line pattern
`(\d{2}:\d{2}:\d{2}[.,]\d{3})\s*-->\s*(\d{2}:\d{2}:\d{2}[.,]\d{3})`:
anchored at the start of the line, anything after the second group is
ignored; `\s` is modelled as ASCII whitespace.  Returns the two groups with
`,` normalised to `.`, as both parsers do. -/
def matchTimestampLine (l : List Char) : Option (String × String) :=
  match matchTsGroup l with
  | none => none
  | some (g1, r1) =>
    match r1.dropWhile isPyWs with
    | '-' :: '-' :: '>' :: r3 =>
      match matchTsGroup (r3.dropWhile isPyWs) with
      | some (g2, _) => some (⟨commaToDot g1⟩, ⟨commaToDot g2⟩)
      | none => none
    | _ => none

/-- A standalone cue-identifier line inside an open VTT cue:
`re.match(r'^\d{1,6}$', line)`: one to six digits and nothing else. -/
def isCueIdLine (l : List Char) : Bool :=
  decide (1 ≤ l.length) && decide (l.length ≤ 6) && l.all isDigitC

/-- The line scan of `parse_vtt_to_text`.  State: the open caption
`(start, end, accumulated text)` if any.  While no caption is open, every
non-timestamp line is skipped (the source's cue-identifier test in that
branch only chooses between two ways of skipping the line). -/
def parseVTTAux : Option (String × String × List Char) → List (List Char) → List RawCaption
  | cur, [] =>
    match cur with
    | some (s, e, t) => [⟨s, e, finalizeText t⟩]
    | none => []
  | cur, line0 :: rest =>
    let line := pyStripL line0
    if line = [] || startsWithL "WEBVTT".data line || startsWithL "NOTE".data line then
      parseVTTAux cur rest
    else
      match matchTimestampLine line with
      | some (s, e) =>
        (match cur with
          | some (s0, e0, t0) => [(⟨s0, e0, finalizeText t0⟩ : RawCaption)]
          | none => []) ++ parseVTTAux (some (s, e, [])) rest
      | none =>
        match cur with
        | some (s0, e0, t0) =>
          if isCueIdLine line then parseVTTAux (some (s0, e0, t0)) rest
          else parseVTTAux (some (s0, e0, if t0 = [] then line else t0 ++ ' ' :: line)) rest
        | none => parseVTTAux none rest

/-- The raw record list of `parse_vtt_to_text`, before reconstruction. -/
def parseVTTRecords (vtt : String) : List RawCaption :=
  parseVTTAux none (splitChar '\n' vtt.data)

/-- The `try/except` around the reconstruction call at the end of both
parsers: attempt `recon`; on any raised error return the un-reconstructed
records unchanged. -/
def recoverReconstruction (recon : List RawCaption → Except String (List RawCaption))
    (captions : List RawCaption) : List RawCaption :=
  match recon captions with
  | .ok r => r
  | .error _ => captions

/-- `_deduplicate_overlapping_captions` as the reconstruction step actually
installed in both parsers; it raises on no input (its Lean model is total),
so it always returns `.ok`. -/
def dedupExc (captions : List RawCaption) : Except String (List RawCaption) :=
  .ok (deduplicate_overlapping_captions captions)

/-- `parse_vtt_to_text` of `utils.py`. -/
def parse_vtt_to_text (vtt : String) : List RawCaption :=
  recoverReconstruction dedupExc (parseVTTRecords vtt)

/-- One block of `parse_srt_to_text`: needs at least two lines; the second
line must match the timestamp pattern; the text is lines 2.. joined by
spaces, stripped, entity-decoded, tag-stripped, stripped again. -/
def parseSRTBlock (block : List Char) : Option RawCaption :=
  match splitChar '\n' (pyStripL block) with
  | _ :: tline :: restLines =>
    match matchTimestampLine tline with
    | some (s, e) =>
      let text := joinWith [' '] restLines
      some ⟨s, e, ⟨pyStripL (stripTags (htmlUnescape (pyStripL text)))⟩⟩
    | none => none
  | _ => none

/-- The raw record list of `parse_srt_to_text`: strip the input, split into
blank-line-separated blocks, parse each block. -/
def parseSRTRecords (srt : String) : List RawCaption :=
  (splitNlNl (pyStripL srt.data)).filterMap parseSRTBlock

/-- `parse_srt_to_text` of `utils.py`. -/
def parse_srt_to_text (srt : String) : List RawCaption :=
  recoverReconstruction dedupExc (parseSRTRecords srt)

/-! ## Format emitters (`convert_to_vtt`, `convert_to_srt`) -/

/-- `s.replace('.', ',')` on the timestamp strings written by
`convert_to_srt`. -/
def dotToComma (l : List Char) : List Char :=
  l.map (fun c => if c = '.' then ',' else c)

/-- `convert_to_vtt` of `utils.py`: `WEBVTT` header, blank line, then per
caption a timestamp line, the text line and a blank separator, joined with
newlines. -/
def convert_to_vtt (caps : List RawCaption) : String :=
  ⟨joinWith ['\n']
    ("WEBVTT".data :: [] ::
      caps.flatMap (fun c => [c.start.data ++ " --> ".data ++ c.end_.data, c.text.data, []]))⟩

/-- `convert_to_srt` of `utils.py`: 1-based sequence number, `,`-separated
timestamp line, text line and blank separator per caption. -/
def convert_to_srt (caps : List RawCaption) : String :=
  ⟨joinWith ['\n']
    (caps.enum.flatMap (fun p =>
      [(Nat.repr (p.1 + 1)).data,
       dotToComma p.2.start.data ++ " --> ".data ++ dotToComma p.2.end_.data,
       p.2.text.data, []]))⟩

/-- One SRT block as written by `convert_to_srt` for the `p.1`-th caption
`p.2` (before joining with blank lines). -/
def srtBlockOf (p : ℕ × RawCaption) : List Char :=
  (Nat.repr (p.1 + 1)).data ++ '\n' ::
    ((dotToComma p.2.start.data ++ " --> ".data ++ dotToComma p.2.end_.data) ++
      '\n' :: p.2.text.data)

/-! ## Language / track resolution (`caption_downloader.py`) -/

/-- One caption-track descriptor as exposed by the metadata source
(the fields `_find_caption_track` reads). -/
structure SubTrack where
  ext : String
  url : String
deriving DecidableEq

/-- The two language-tag → track-list mappings of the video metadata, as
insertion-ordered association lists (Python dicts preserve insertion
order). -/
structure VideoMeta where
  subtitles : List (String × List SubTrack)
  automatic_captions : List (String × List SubTrack)
deriving DecidableEq

/-- The result of `_find_caption_track`. -/
structure TrackChoice where
  url : String
  ext : String
  source : String
  language : String
deriving DecidableEq

/-- Ordered dict lookup. -/
def lookupTracks (m : List (String × List SubTrack)) (k : String) : Option (List SubTrack) :=
  (m.find? (fun p => p.1 = k)).map (fun p => p.2)

/-- `list(d.keys())`. -/
def keysOf (m : List (String × List SubTrack)) : List String :=
  m.map (fun p => p.1)

/-- ASCII `str.lower()`. -/
def pyLower (s : String) : String :=
  ⟨s.data.map Char.toLower⟩

/-- `_extract_base_language_code`: text before the first `-`, lower-cased. -/
def extract_base_language_code (lc : String) : String :=
  pyLower ⟨(splitChar '-' lc.data).headD []⟩

/-- `_find_matching_language`: exact tag first, then the first available tag
whose base subtag matches the request's base subtag (both lower-cased). -/
def find_matching_language (requested : String) (available : List String) : Option String :=
  if requested ∈ available then some requested
  else available.find? (fun al => extract_base_language_code al = extract_base_language_code requested)

/-- `_select_best_track`: first `vtt` track, else first `srt` track, else the
first track; `none` only on an empty list. -/
def select_best_track (tracks : List SubTrack) : Option SubTrack :=
  if tracks = [] then none
  else
    match tracks.find? (fun t => t.ext = "vtt") with
    | some t => some t
    | none =>
      match tracks.find? (fun t => t.ext = "srt") with
      | some t => some t
      | none => tracks.head?

/-- The per-source half of `_find_caption_track`'s specific-language path:
find a matching language in the mapping and, when its track list is
non-empty, the best track of that language. -/
def resolveFromSource (m : List (String × List SubTrack)) (lang : String) :
    Option (String × SubTrack) :=
  match find_matching_language lang (keysOf m) with
  | some ml =>
    match lookupTracks m ml with
    | some ts => if ts ≠ [] then (select_best_track ts).map (fun t => (ml, t)) else none
    | none => none
  | none => none

/-- The auto-detect half: first language of the mapping, when it has a
non-empty track list. -/
def firstOfSource (m : List (String × List SubTrack)) : Option (String × SubTrack) :=
  match m with
  | [] => none
  | (l0, ts0) :: _ =>
    if ts0 ≠ [] then (select_best_track ts0).map (fun t => (l0, t)) else none

/-- `_find_caption_track` of `caption_downloader.py`. -/
def find_caption_track (metadata : VideoMeta) (lang : String) (prefer_manual : Bool) :
    Option TrackChoice :=
  if pyLower lang = "auto" ∨ pyLower lang = "auto-detect" ∨ pyLower lang = "" then
    match firstOfSource metadata.subtitles with
    | some (l0, t) => some ⟨t.url, t.ext, "manual", l0⟩
    | none =>
      match firstOfSource metadata.automatic_captions with
      | some (l0, t) => some ⟨t.url, t.ext, "auto", l0⟩
      | none => none
  else
    let manual := resolveFromSource metadata.subtitles lang
    let auto := resolveFromSource metadata.automatic_captions lang
    if prefer_manual ∧ manual.isSome then
      manual.map (fun p => ⟨p.2.url, p.2.ext, "manual", p.1⟩)
    else if auto.isSome then
      auto.map (fun p => ⟨p.2.url, p.2.ext, "auto", p.1⟩)
    else if manual.isSome then
      manual.map (fun p => ⟨p.2.url, p.2.ext, "manual", p.1⟩)
    else none

/-! ## Auxiliary definitions used in claim statements -/

/-- The decimal digit characters, as a total function (only applied to
values `< 10` below). -/
def digitChar10 : ℕ → Char
  | 0 => '0'
  | 1 => '1'
  | 2 => '2'
  | 3 => '3'
  | 4 => '4'
  | 5 => '5'
  | 6 => '6'
  | 7 => '7'
  | 8 => '8'
  | _ => '9'

/-- Two-digit zero-padded decimal rendering (for `n ≤ 99`). -/
def pad2 (n : ℕ) : List Char :=
  [digitChar10 (n / 10), digitChar10 (n % 10)]

/-- Three-digit zero-padded decimal rendering (for `n ≤ 999`). -/
def pad3 (n : ℕ) : List Char :=
  [digitChar10 (n / 100), digitChar10 (n / 10 % 10), digitChar10 (n % 10)]

/-- The canonical timestamp string `HH:MM:SS.mmm` with the given component
values. -/
def fmtTs (h m s ms : ℕ) : String :=
  ⟨pad2 h ++ ':' :: pad2 m ++ ':' :: pad2 s ++ '.' :: pad3 ms⟩

/-- The canonical timestamp string `HH:MM:SS` without a fractional part. -/
def fmtTsNoMs (h m s : ℕ) : String :=
  ⟨pad2 h ++ ':' :: pad2 m ++ ':' :: pad2 s⟩

/-- The failure condition stated by the spec for the timestamp codec: the
colon-separated component count is not 3, the hours or minutes component is
non-numeric, or the seconds component is bad — zero length before the
optional `.`, non-numeric before the `.`, or a non-numeric millisecond field
after it.  ("Non-numeric" means: rejected by Python's `int`; as in the
source, fields after a second `.` are ignored.) -/
def malformedTimestamp (s : String) : Bool :=
  match splitChar ':' s.data with
  | [p0, p1, p2] =>
    (pyInt p0).isNone || (pyInt p1).isNone ||
      (match splitChar '.' p2 with
       | s0 :: rest =>
         (pyInt s0).isNone ||
           (match rest with
            | [] => false
            | ms0 :: _ => (pyInt ms0).isNone)
       | [] => true)
  | _ => true

/-- Exactly the 12-character shape `dd:dd:dd.ddd` that both parsers emit as
`start`/`end` fields (after `,` → `.` normalisation). -/
def isCanonicalTs (s : String) : Bool :=
  match s.data with
  | [a, b, c1, c, d, c2, e, f, c3, g, h, i] =>
    isDigitC a && isDigitC b && c1 = ':' && isDigitC c && isDigitC d && c2 = ':' &&
      isDigitC e && isDigitC f && c3 = '.' && isDigitC g && isDigitC h && isDigitC i
  | _ => false

/-- The word sequence of a caption text (whitespace-delimited, as in the
spec's description of the sliding-window check). -/
def wordsOf (t : String) : List (List Char) :=
  pyWords t.data

/-- Stated from the spec's words: the sliding-window overlap relation — the
last `i` words of the earlier text equal the first `i` words of the later
text. -/
def slidingOverlapAt (prevWords currWords : List (List Char)) (i : ℕ) : Prop :=
  i ≤ prevWords.length ∧ i ≤ currWords.length ∧
    prevWords.drop (prevWords.length - i) = currWords.take i

/-- The start time of a record in seconds (0 for an unparseable start, which
never occurs in reconstruction output). -/
def startSeconds (r : RawCaption) : ℚ :=
  (timestamp_to_seconds r.start).getD 0

/-- Caption texts that survive a trip through a single emitted line
unchanged: non-empty, strip-stable, and free of newlines, `&` and `<`
(so entity decoding and tag stripping are the identity on them). -/
def cleanTextBase (t : String) : Bool :=
  decide (t.data ≠ []) && decide (pyStripL t.data = t.data) &&
    t.data.all (fun c => c ≠ '\n' && c ≠ '&' && c ≠ '<')

/-- The additional conditions a text line must satisfy so the VTT line scan
returns it as caption text: not a cue-identifier line, not a `WEBVTT`/`NOTE`
header line, and not itself matching the timestamp-line pattern. -/
def cleanTextVtt (t : String) : Bool :=
  cleanTextBase t && !isCueIdLine t.data && !startsWithL "WEBVTT".data t.data &&
    !startsWithL "NOTE".data t.data && (matchTimestampLine t.data).isNone

/-- No two consecutive newline characters (so the text cannot split an SRT
block in two). -/
def noNlNl : List Char → Bool
  | [] => true
  | '\n' :: '\n' :: _ => false
  | _ :: rest => noNlNl rest

/-! ## Basic lemmas about the string primitives -/

theorem startsWithL_iff (p l : List Char) : startsWithL p l = true ↔ ∃ t, l = p ++ t := by
  induction p generalizing l with
  | nil => simp [startsWithL]
  | cons c p ih =>
    cases l with
    | nil => simp [startsWithL]
    | cons d l =>
      simp only [startsWithL, Bool.and_eq_true, decide_eq_true_eq, ih]
      constructor
      · rintro ⟨rfl, t, rfl⟩; exact ⟨t, rfl⟩
      · rintro ⟨t, ht⟩
        injection ht with h1 h2
        exact ⟨h1.symm, t, h2⟩

theorem startsWithL_refl (l : List Char) : startsWithL l l = true :=
  (startsWithL_iff l l).2 ⟨[], by simp⟩

theorem startsWithL_length {p l : List Char} (h : startsWithL p l = true) :
    p.length ≤ l.length := by
  obtain ⟨t, rfl⟩ := (startsWithL_iff p l).1 h
  simp

theorem endsWithL_iff (p l : List Char) : endsWithL p l = true ↔ ∃ t, l = t ++ p := by
  unfold endsWithL
  rw [startsWithL_iff]
  constructor
  · rintro ⟨t, ht⟩
    refine ⟨t.reverse, ?_⟩
    have h2 := congrArg List.reverse ht
    simpa using h2
  · rintro ⟨t, rfl⟩
    exact ⟨t.reverse, by simp⟩

theorem isSubL_iff (p l : List Char) : isSubL p l = true ↔ ∃ pre post, l = pre ++ p ++ post := by
  induction l with
  | nil =>
    simp only [isSubL, List.isEmpty_iff]
    constructor
    · rintro rfl; exact ⟨[], [], rfl⟩
    · rintro ⟨pre, post, h⟩
      rcases List.append_eq_nil.1 h.symm with ⟨h1, h2⟩
      rcases List.append_eq_nil.1 h1 with ⟨-, h3⟩
      exact h3
  | cons c rest ih =>
    simp only [isSubL, Bool.or_eq_true, startsWithL_iff, ih]
    constructor
    · rintro (⟨t, ht⟩ | ⟨pre, post, rfl⟩)
      · exact ⟨[], t, by simpa using ht⟩
      · exact ⟨c :: pre, post, rfl⟩
    · rintro ⟨pre, post, hpre⟩
      cases pre with
      | nil => exact Or.inl ⟨post, by simpa using hpre⟩
      | cons x xs =>
        injection hpre with h1 h2
        exact Or.inr ⟨xs, post, h2⟩

theorem isSubL_refl (l : List Char) : isSubL l l = true :=
  (isSubL_iff l l).2 ⟨[], [], by simp⟩

theorem startsWithL_isSub {p l : List Char} (h : startsWithL p l = true) : isSubL p l = true := by
  obtain ⟨t, rfl⟩ := (startsWithL_iff p l).1 h
  exact (isSubL_iff _ _).2 ⟨[], t, by simp⟩

theorem endsWithL_isSub {p l : List Char} (h : endsWithL p l = true) : isSubL p l = true := by
  obtain ⟨t, rfl⟩ := (endsWithL_iff p l).1 h
  exact (isSubL_iff _ _).2 ⟨t, [], by simp⟩

theorem isSubL_length {p l : List Char} (h : isSubL p l = true) : p.length ≤ l.length := by
  obtain ⟨pre, post, rfl⟩ := (isSubL_iff p l).1 h
  simp only [List.length_append]
  omega

/-! ## Membership / provenance lemmas for the deduplicator -/

theorem mem_applyCases {c : ProcCaption} :
    ∀ {acc acc2 : List ProcCaption}, applyCases c acc = some acc2 →
      ∀ {y}, y ∈ acc2 → y ∈ acc ∨ y = c := by
  intro acc
  induction acc with
  | nil => intro acc2 h; simp [applyCases] at h
  | cons prev rest ih =>
    intro acc2 h y hy
    unfold applyCases at h
    cases hca : caseAction c prev with
    | some b =>
      cases b <;> rw [hca] at h <;> injection h with h <;> subst h
      · rcases List.mem_cons.1 hy with h1 | h1
        · exact Or.inl (List.mem_cons.2 (Or.inl h1))
        · exact Or.inl (List.mem_cons.2 (Or.inr h1))
      · rcases List.mem_cons.1 hy with h1 | h1
        · exact Or.inr h1
        · exact Or.inl (List.mem_cons.2 (Or.inr h1))
    | none =>
      rw [hca] at h
      rcases Option.map_eq_some'.1 h with ⟨r2, hr2, rfl⟩
      rcases List.mem_cons.1 hy with h1 | h1
      · exact Or.inl (List.mem_cons.2 (Or.inl h1))
      · rcases ih hr2 h1 with h2 | h2
        · exact Or.inl (List.mem_cons.2 (Or.inr h2))
        · exact Or.inr h2

theorem mem_dedupFold :
    ∀ {cs acc : List ProcCaption} {y}, y ∈ dedupFold acc cs → y ∈ acc ∨ y ∈ cs := by
  intro cs
  induction cs with
  | nil => intro acc y h; exact Or.inl h
  | cons c cs ih =>
    intro acc y h
    unfold dedupFold at h
    cases hac : applyCases c acc with
    | some acc2 =>
      rw [hac] at h
      rcases ih h with h1 | h1
      · rcases mem_applyCases hac h1 with h2 | h2
        · exact Or.inl h2
        · exact Or.inr (h2 ▸ List.mem_cons_self c cs)
      · exact Or.inr (List.mem_cons.2 (Or.inr h1))
    | none =>
      rw [hac] at h
      rcases ih h with h1 | h1
      · rcases List.mem_append.1 h1 with h2 | h2
        · exact Or.inl h2
        · exact Or.inr (List.mem_cons.2 (Or.inl (List.mem_singleton.1 h2)))
      · exact Or.inr (List.mem_cons.2 (Or.inr h1))

theorem mem_processedOf {caps : List RawCaption} {p : ProcCaption} (h : p ∈ processedOf caps) :
    ∃ cap ∈ caps, p.start = cap.start ∧ p.end_ = cap.end_ ∧ p.text = pyStrip cap.text ∧
      pyStrip cap.text ≠ "" ∧ timestampToMillis cap.start = some p.startMs ∧
      timestampToMillis cap.end_ = some p.endMs := by
  unfold processedOf at h
  rw [List.mem_filterMap] at h
  obtain ⟨cap, hcap, hf⟩ := h
  by_cases ht : pyStrip cap.text = ""
  · simp [ht] at hf
  · cases hs : timestampToMillis cap.start with
    | none => simp [ht, hs] at hf
    | some ss =>
      cases he : timestampToMillis cap.end_ with
      | none => simp [ht, hs, he] at hf
      | some es =>
        simp only [ht, hs, he, if_neg ht] at hf
        injection hf with hf
        refine ⟨cap, hcap, ?_⟩
        subst hf
        exact ⟨rfl, rfl, rfl, ht, hs, he⟩

/-- Every record the case loop and final sort can produce is literally one of
the validated input records. -/
theorem mem_dedupPipeline {caps : List RawCaption} {p : ProcCaption}
    (h : p ∈ List.insertionSort key2Le
        (dedupFold [] (List.insertionSort key1Le (processedOf caps)))) :
    p ∈ processedOf caps := by
  rw [List.mem_insertionSort] at h
  rcases mem_dedupFold h with h1 | h1
  · simp at h1
  · rwa [List.mem_insertionSort] at h1

/-- Provenance of reconstruction output: every returned record is the
`(start, end, stripped text)` projection of one of the input records, with
both timestamps parseable and the stripped text non-empty. -/
theorem mem_dedup {caps : List RawCaption} {r : RawCaption}
    (h : r ∈ deduplicate_overlapping_captions caps) :
    ∃ cap ∈ caps, r = ⟨cap.start, cap.end_, pyStrip cap.text⟩ ∧ pyStrip cap.text ≠ "" ∧
      (timestampToMillis cap.start).isSome ∧ (timestampToMillis cap.end_).isSome := by
  unfold deduplicate_overlapping_captions at h
  by_cases hne : caps = []
  · simp [hne] at h
  · rw [if_neg hne] at h
    simp only [List.mem_map] at h
    obtain ⟨p, hp, rfl⟩ := h
    obtain ⟨cap, hcap, h1, h2, h3, h4, h5, h6⟩ := mem_processedOf (mem_dedupPipeline hp)
    exact ⟨cap, hcap, by rw [h1, h2, h3], h4, by rw [h5]; rfl, by rw [h6]; rfl⟩

/-! ## Claims C3, C8, C9, C10 -/

/-- C9: reconstruction never fabricates a span — every record in the output
of `_deduplicate_overlapping_captions` is exactly the
`(start, end, whitespace-stripped text)` triple of a single input record;
merging only drops records or replaces one whole record with another, and
never combines one input record's start with a different input record's
end. -/
theorem claim_C9_no_fabricated_span (caps : List RawCaption) (r : RawCaption)
    (h : r ∈ deduplicate_overlapping_captions caps) :
    ∃ cap ∈ caps, r = ⟨cap.start, cap.end_, pyStrip cap.text⟩ := by
  obtain ⟨cap, hcap, h1, -⟩ := mem_dedup h
  exact ⟨cap, hcap, h1⟩

theorem claim_C9_no_fabricated_span_witness :
    ∃ cap ∈ [(⟨"00:00:00.000", "00:00:01.000", "Hello"⟩ : RawCaption),
             ⟨"00:00:01.000", "00:00:02.000", " Hello world "⟩],
      (⟨"00:00:01.000", "00:00:02.000", "Hello world"⟩ : RawCaption) =
        ⟨cap.start, cap.end_, pyStrip cap.text⟩ :=
  claim_C9_no_fabricated_span
    [⟨"00:00:00.000", "00:00:01.000", "Hello"⟩, ⟨"00:00:01.000", "00:00:02.000", " Hello world "⟩]
    ⟨"00:00:01.000", "00:00:02.000", "Hello world"⟩ (by decide)

/-- C8: non-empty text at the parser boundary — every record in the list
returned by `parse_vtt_to_text` or `parse_srt_to_text` has non-empty text
(a record whose finalized text is empty never reaches the returned list:
the reconstruction step's validation pass discards it). -/
theorem claim_C8_nonempty_text :
    (∀ (s : String) (r : RawCaption), r ∈ parse_vtt_to_text s → r.text ≠ "") ∧
    (∀ (s : String) (r : RawCaption), r ∈ parse_srt_to_text s → r.text ≠ "") := by
  constructor <;> intro s r h
  · obtain ⟨cap, -, h1, h2, -⟩ :=
      @mem_dedup (parseVTTRecords s) r (by simpa [parse_vtt_to_text,
        recoverReconstruction, dedupExc] using h)
    rw [h1]
    exact h2
  · obtain ⟨cap, -, h1, h2, -⟩ :=
      @mem_dedup (parseSRTRecords s) r (by simpa [parse_srt_to_text,
        recoverReconstruction, dedupExc] using h)
    rw [h1]
    exact h2

theorem claim_C8_nonempty_text_witness :
    (⟨"00:00:00.000", "00:00:05.000", "Hi there"⟩ : RawCaption).text ≠ "" :=
  claim_C8_nonempty_text.1 "WEBVTT\n\n00:00:00.000 --> 00:00:05.000\nHi there\n"
    ⟨"00:00:00.000", "00:00:05.000", "Hi there"⟩ (by decide)

/-- C10: reconstruction output is chronologically ordered — for every input
list, `_deduplicate_overlapping_captions` returns records sorted by
nondecreasing start time (the start timestamp interpreted as seconds, which
is always parseable on output), even when the surviving input records were
out of chronological order. -/
theorem claim_C10_sorted_output (caps : List RawCaption) :
    List.Pairwise (fun a b => startSeconds a ≤ startSeconds b)
      (deduplicate_overlapping_captions caps) ∧
    ∀ r ∈ deduplicate_overlapping_captions caps, (timestamp_to_seconds r.start).isSome := by
  constructor
  · unfold deduplicate_overlapping_captions
    by_cases hne : caps = []
    · simp [hne]
    · rw [if_neg hne]
      rw [List.pairwise_map]
      have hs : List.Sorted key2Le
          (List.insertionSort key2Le (dedupFold [] (List.insertionSort key1Le (processedOf caps)))) :=
        List.sorted_insertionSort key2Le _
      refine List.Pairwise.imp_of_mem ?_ hs
      intro a b ha hb hab
      obtain ⟨capa, -, h1a, -, -, -, hsa, -⟩ := mem_processedOf (mem_dedupPipeline ha)
      obtain ⟨capb, -, h1b, -, -, -, hsb, -⟩ := mem_processedOf (mem_dedupPipeline hb)
      rw [← h1a] at hsa
      rw [← h1b] at hsb
      show startSeconds ⟨a.start, a.end_, a.text⟩ ≤ startSeconds ⟨b.start, b.end_, b.text⟩
      have hA : startSeconds ⟨a.start, a.end_, a.text⟩ = (a.startMs : ℚ) / 1000 := by
        simp [startSeconds, timestamp_to_seconds, hsa]
      have hB : startSeconds ⟨b.start, b.end_, b.text⟩ = (b.startMs : ℚ) / 1000 := by
        simp [startSeconds, timestamp_to_seconds, hsb]
      rw [hA, hB]
      have hm : (a.startMs : ℚ) ≤ (b.startMs : ℚ) := by exact_mod_cast hab
      linarith
  · intro r h
    obtain ⟨cap, -, h1, -, h3, -⟩ := mem_dedup h
    rw [h1]
    rcases Option.isSome_iff_exists.1 h3 with ⟨v, hv⟩
    simp [timestamp_to_seconds, hv]

theorem claim_C10_sorted_output_witness :
    (timestamp_to_seconds
      (RawCaption.start ⟨"00:00:01.000", "00:00:02.000", "second first"⟩)).isSome :=
  (claim_C10_sorted_output
      [⟨"00:00:05.000", "00:00:06.000", "first last"⟩,
       ⟨"00:00:01.000", "00:00:02.000", "second first"⟩]).2
    ⟨"00:00:01.000", "00:00:02.000", "second first"⟩ (by decide)

/-- C3: reconstruction failure fallback — the recovery boundary around the
reconstruction step returns the pre-reconstruction record sequence whenever
reconstruction reports any error (never propagating the failure), and both
`parse_vtt_to_text` and `parse_srt_to_text` are exactly this boundary
applied to their raw record lists. -/
theorem claim_C3_reconstruction_fallback :
    (∀ (recon : List RawCaption → Except String (List RawCaption))
        (caps : List RawCaption) (err : String),
      recon caps = .error err → recoverReconstruction recon caps = caps) ∧
    (∀ s, parse_vtt_to_text s = recoverReconstruction dedupExc (parseVTTRecords s)) ∧
    (∀ s, parse_srt_to_text s = recoverReconstruction dedupExc (parseSRTRecords s)) := by
  refine ⟨?_, fun s => rfl, fun s => rfl⟩
  intro recon caps err h
  unfold recoverReconstruction
  rw [h]

theorem claim_C3_reconstruction_fallback_witness :
    recoverReconstruction (fun _ => Except.error "reconstruction error")
      [⟨"00:00:00.000", "00:00:01.000", "kept as-is"⟩] =
      [⟨"00:00:00.000", "00:00:01.000", "kept as-is"⟩] :=
  claim_C3_reconstruction_fallback.1 (fun _ => Except.error "reconstruction error")
    [⟨"00:00:00.000", "00:00:01.000", "kept as-is"⟩] "reconstruction error" rfl

/-! ## Symbolic evaluation of the deduplicator on two-record inputs -/

theorem processedOf_nil : processedOf [] = [] := rfl

theorem processedOf_cons_some {cap : RawCaption} {caps : List RawCaption} {ss es : ℤ}
    (ht : pyStrip cap.text ≠ "") (hs : timestampToMillis cap.start = some ss)
    (he : timestampToMillis cap.end_ = some es) :
    processedOf (cap :: caps) =
      ⟨cap.start, cap.end_, pyStrip cap.text, ss, es, es - ss⟩ :: processedOf caps := by
  unfold processedOf
  rw [List.filterMap_cons]
  simp [ht, hs, he]

theorem insertionSort_key1_pair {a b : ProcCaption} (h : key1Le a b) :
    List.insertionSort key1Le [a, b] = [a, b] := by
  simp [List.insertionSort, List.orderedInsert, h]

theorem insertionSort_key2_pair {a b : ProcCaption} (h : key2Le a b) :
    List.insertionSort key2Le [a, b] = [a, b] := by
  simp [List.insertionSort, List.orderedInsert, h]

theorem insertionSort_key2_single (a : ProcCaption) :
    List.insertionSort key2Le [a] = [a] := by
  simp [List.insertionSort, List.orderedInsert]

/-- If the two normalised texts are not substrings of each other, no case of
the comparison fires, whatever the time relations are. -/
theorem caseAction_none_of_not_sub {c p : ProcCaption}
    (h1 : isSubL (normWsL c.text.data) (normWsL p.text.data) = false)
    (h2 : isSubL (normWsL p.text.data) (normWsL c.text.data) = false) :
    caseAction c p = none := by
  have hne : ¬normWsL c.text.data = normWsL p.text.data := by
    intro h
    rw [h, isSubL_refl] at h1
    exact Bool.true_eq_false.mp h1
  have h5 : startsWithL (normWsL p.text.data) (normWsL c.text.data) = false := by
    cases hsw : startsWithL (normWsL p.text.data) (normWsL c.text.data) with
    | false => rfl
    | true => rw [startsWithL_isSub hsw] at h2; exact absurd h2 (by simp)
  have h6 : endsWithL (normWsL p.text.data) (normWsL c.text.data) = false := by
    cases hew : endsWithL (normWsL p.text.data) (normWsL c.text.data) with
    | false => rfl
    | true => rw [endsWithL_isSub hew] at h2; exact absurd h2 (by simp)
  unfold caseAction
  simp [hne, h1, h2, h5, h6]

/-- Case 3 fires when the previous normalised text occurs in the (strictly
longer) current one and the spans overlap or current starts exactly where
previous ends: the previous record is replaced wholesale by `current`. -/
theorem caseAction_true_of_growth {c p : ProcCaption}
    (hpre : startsWithL (normWsL p.text.data) (normWsL c.text.data) = true)
    (hlen : (normWsL p.text.data).length < (normWsL c.text.data).length)
    (htime : max c.startMs p.startMs < min c.endMs p.endMs ∨ c.startMs = p.endMs) :
    caseAction c p = some true := by
  have hne : ¬normWsL c.text.data = normWsL p.text.data := by
    intro h
    rw [h] at hlen
    omega
  have hsub2 : isSubL (normWsL c.text.data) (normWsL p.text.data) = false := by
    cases h : isSubL (normWsL c.text.data) (normWsL p.text.data) with
    | false => rfl
    | true => exact absurd (isSubL_length h) (by omega)
  have hsub3 : isSubL (normWsL p.text.data) (normWsL c.text.data) = true :=
    startsWithL_isSub hpre
  unfold caseAction
  rcases htime with h | h
  · simp [hne, hsub2, hsub3, h]
  · have hadj : |c.startMs - p.endMs| < 10 := by
      rw [h]
      simp
    simp [hne, hsub2, hsub3, hadj]

theorem dedupFold_pair_none {p1 p2 : ProcCaption} (h : caseAction p2 p1 = none) :
    dedupFold [] [p1, p2] = [p1, p2] := by
  simp [dedupFold, applyCases, h]

theorem dedupFold_pair_replace {p1 p2 : ProcCaption} (h : caseAction p2 p1 = some true) :
    dedupFold [] [p1, p2] = [p2] := by
  simp [dedupFold, applyCases, h]

theorem dedupFold_pair_drop {p1 p2 : ProcCaption} (h : caseAction p2 p1 = some false) :
    dedupFold [] [p1, p2] = [p1] := by
  simp [dedupFold, applyCases, h]

/-- Two valid records whose normalised texts are not substrings of each other
(in either direction) both survive deduplication unchanged. -/
theorem dedup_pair_unrelated (r1 r2 : RawCaption) (s1 e1 s2 e2 : ℤ)
    (hs1 : timestampToMillis r1.start = some s1) (he1 : timestampToMillis r1.end_ = some e1)
    (hs2 : timestampToMillis r2.start = some s2) (he2 : timestampToMillis r2.end_ = some e2)
    (ht1 : pyStrip r1.text ≠ "") (ht2 : pyStrip r2.text ≠ "")
    (hlt : s1 < s2)
    (hnc1 : isSubL (normWsL (pyStrip r2.text).data) (normWsL (pyStrip r1.text).data) = false)
    (hnc2 : isSubL (normWsL (pyStrip r1.text).data) (normWsL (pyStrip r2.text).data) = false) :
    deduplicate_overlapping_captions [r1, r2] =
      [⟨r1.start, r1.end_, pyStrip r1.text⟩, ⟨r2.start, r2.end_, pyStrip r2.text⟩] := by
  unfold deduplicate_overlapping_captions
  rw [if_neg (by simp)]
  rw [processedOf_cons_some ht1 hs1 he1, processedOf_cons_some ht2 hs2 he2, processedOf_nil]
  rw [insertionSort_key1_pair (Or.inl hlt)]
  rw [dedupFold_pair_none (caseAction_none_of_not_sub hnc1 hnc2)]
  rw [insertionSort_key2_pair (le_of_lt hlt)]
  rfl

/-- Two valid records where the second's normalised text strictly extends the
first's as a prefix and the spans overlap or touch: the first is replaced
wholesale, leaving only the second record's full triple. -/
theorem dedup_pair_prefix_growth (r1 r2 : RawCaption) (s1 e1 s2 e2 : ℤ)
    (hs1 : timestampToMillis r1.start = some s1) (he1 : timestampToMillis r1.end_ = some e1)
    (hs2 : timestampToMillis r2.start = some s2) (he2 : timestampToMillis r2.end_ = some e2)
    (ht1 : pyStrip r1.text ≠ "") (ht2 : pyStrip r2.text ≠ "")
    (hlt : s1 < s2)
    (hpre : startsWithL (normWsL (pyStrip r1.text).data) (normWsL (pyStrip r2.text).data) = true)
    (hlen : (normWsL (pyStrip r1.text).data).length < (normWsL (pyStrip r2.text).data).length)
    (htime : max s2 s1 < min e2 e1 ∨ s2 = e1) :
    deduplicate_overlapping_captions [r1, r2] = [⟨r2.start, r2.end_, pyStrip r2.text⟩] := by
  unfold deduplicate_overlapping_captions
  rw [if_neg (by simp)]
  rw [processedOf_cons_some ht1 hs1 he1, processedOf_cons_some ht2 hs2 he2, processedOf_nil]
  rw [insertionSort_key1_pair (Or.inl hlt)]
  rw [dedupFold_pair_replace (caseAction_true_of_growth hpre hlen htime)]
  rw [insertionSort_key2_single]
  rfl

/-! ## Claims C1, C2, C4 -/

/-- C1 counterexample: the claim predicts that a sliding-window continuation
is merged into one utterance spanning first start to second end.  On the
code, `("X A B C")` followed by `("A B C Y")` — a 3-word sliding overlap with
adjacent spans — stays two separate utterances, and so does the claim's own
`("A B C")`/`("B C D")` instance. -/
theorem claim_C1_sliding_window_counterexample :
    deduplicate_overlapping_captions
        [⟨"00:00:00.000", "00:00:01.000", "X A B C"⟩,
         ⟨"00:00:01.000", "00:00:02.000", "A B C Y"⟩] =
      [⟨"00:00:00.000", "00:00:01.000", "X A B C"⟩,
       ⟨"00:00:01.000", "00:00:02.000", "A B C Y"⟩] ∧
    slidingOverlapAt (wordsOf "X A B C") (wordsOf "A B C Y") 3 ∧
    deduplicate_overlapping_captions
        [⟨"00:00:00.000", "00:00:01.000", "A B C"⟩,
         ⟨"00:00:01.000", "00:00:02.000", "B C D"⟩] =
      [⟨"00:00:00.000", "00:00:01.000", "A B C"⟩,
       ⟨"00:00:01.000", "00:00:02.000", "B C D"⟩] :=
  ⟨by decide, by constructor <;> [decide; constructor <;> decide], by decide⟩

/-- C1 amended: reconstruction performs no sliding-window merge — two
consecutive valid records whose texts overlap as a sliding window (the last
`i ≥ 3` words of the earlier equal the first `i` words of the later) but
where neither normalised text occurs inside the other are kept as two
separate utterances, each with its own original span. -/
theorem claim_C1_amended_no_sliding_merge (r1 r2 : RawCaption) (s1 e1 s2 e2 : ℤ) (i : ℕ)
    (hs1 : timestampToMillis r1.start = some s1) (he1 : timestampToMillis r1.end_ = some e1)
    (hs2 : timestampToMillis r2.start = some s2) (he2 : timestampToMillis r2.end_ = some e2)
    (ht1 : pyStrip r1.text ≠ "") (ht2 : pyStrip r2.text ≠ "")
    (hlt : s1 < s2)
    (hov : slidingOverlapAt (wordsOf r1.text) (wordsOf r2.text) i) (hi : 3 ≤ i)
    (hnc1 : isSubL (normWsL (pyStrip r2.text).data) (normWsL (pyStrip r1.text).data) = false)
    (hnc2 : isSubL (normWsL (pyStrip r1.text).data) (normWsL (pyStrip r2.text).data) = false) :
    deduplicate_overlapping_captions [r1, r2] =
      [⟨r1.start, r1.end_, pyStrip r1.text⟩, ⟨r2.start, r2.end_, pyStrip r2.text⟩] :=
  dedup_pair_unrelated r1 r2 s1 e1 s2 e2 hs1 he1 hs2 he2 ht1 ht2 hlt hnc1 hnc2

theorem claim_C1_amended_no_sliding_merge_witness :
    deduplicate_overlapping_captions
        [⟨"00:00:02.000", "00:00:03.500", "X A B C"⟩,
         ⟨"00:00:03.500", "00:00:05.000", "A B C Y"⟩] =
      [⟨"00:00:02.000", "00:00:03.500", "X A B C"⟩,
       ⟨"00:00:03.500", "00:00:05.000", "A B C Y"⟩] :=
  claim_C1_amended_no_sliding_merge
    ⟨"00:00:02.000", "00:00:03.500", "X A B C"⟩ ⟨"00:00:03.500", "00:00:05.000", "A B C Y"⟩
    2000 3500 3500 5000 3 (by decide) (by decide) (by decide) (by decide) (by decide)
    (by decide) (by decide) (by constructor <;> [decide; constructor <;> decide]) (by decide)
    (by decide) (by decide)

/-- C2 counterexample: on the raw records
`("00:00:00.000","00:00:01.000","Hello")` and
`("00:00:01.000","00:00:02.000","Hello world")` reconstruction does return a
single utterance with text `"Hello world"` — but its start is the *later*
record's `"00:00:01.000"`, not the claimed `"00:00:00.000"`: the replacement
copies the whole later record instead of keeping the earlier start. -/
theorem claim_C2_prefix_growth_counterexample :
    deduplicate_overlapping_captions
        [⟨"00:00:00.000", "00:00:01.000", "Hello"⟩,
         ⟨"00:00:01.000", "00:00:02.000", "Hello world"⟩] =
      [⟨"00:00:01.000", "00:00:02.000", "Hello world"⟩] ∧
    deduplicate_overlapping_captions
        [⟨"00:00:00.000", "00:00:01.000", "Hello"⟩,
         ⟨"00:00:01.000", "00:00:02.000", "Hello world"⟩] ≠
      [⟨"00:00:00.000", "00:00:02.000", "Hello world"⟩] :=
  ⟨by decide, by decide⟩

/-- C2 amended: given those two raw records, reconstruction returns exactly
one utterance — with start `"00:00:01.000"`, end `"00:00:02.000"` and text
`"Hello world"`; in general, when the later record's normalised text starts
with the earlier's and is strictly longer, and the spans overlap or the
later starts exactly where the earlier ends, the earlier record is replaced
wholesale: the merged utterance carries the later record's start and end. -/
theorem claim_C2_amended_prefix_growth (r1 r2 : RawCaption) (s1 e1 s2 e2 : ℤ)
    (hs1 : timestampToMillis r1.start = some s1) (he1 : timestampToMillis r1.end_ = some e1)
    (hs2 : timestampToMillis r2.start = some s2) (he2 : timestampToMillis r2.end_ = some e2)
    (ht1 : pyStrip r1.text ≠ "") (ht2 : pyStrip r2.text ≠ "")
    (hlt : s1 < s2)
    (hpre : startsWithL (normWsL (pyStrip r1.text).data) (normWsL (pyStrip r2.text).data) = true)
    (hlen : (normWsL (pyStrip r1.text).data).length < (normWsL (pyStrip r2.text).data).length)
    (htime : max s2 s1 < min e2 e1 ∨ s2 = e1) :
    deduplicate_overlapping_captions [r1, r2] = [⟨r2.start, r2.end_, pyStrip r2.text⟩] :=
  dedup_pair_prefix_growth r1 r2 s1 e1 s2 e2 hs1 he1 hs2 he2 ht1 ht2 hlt hpre hlen htime

theorem claim_C2_amended_prefix_growth_witness :
    deduplicate_overlapping_captions
        [⟨"00:00:00.000", "00:00:01.000", "Hello"⟩,
         ⟨"00:00:01.000", "00:00:02.000", "Hello world"⟩] =
      [⟨"00:00:01.000", "00:00:02.000", "Hello world"⟩] :=
  claim_C2_amended_prefix_growth
    ⟨"00:00:00.000", "00:00:01.000", "Hello"⟩ ⟨"00:00:01.000", "00:00:02.000", "Hello world"⟩
    0 1000 1000 2000 (by decide) (by decide) (by decide) (by decide) (by decide) (by decide)
    (by decide) (by decide) (by decide) (Or.inr (by decide))

/-- C4 counterexample: the claim quantifies over consecutive records whose
word overlap is below 3 and where neither text is a prefix of the other, and
asserts they stay separate.  `("x the cat")` followed by `("cat")` satisfies
that hypothesis (1-word overlap, no prefix relation either way), yet the
code merges them into a single utterance, because the later text occurs
inside the earlier one and the spans are adjacent (case 2 of the pairwise
loop). -/
theorem claim_C4_below_threshold_counterexample :
    deduplicate_overlapping_captions
        [⟨"00:00:00.000", "00:00:01.000", "x the cat"⟩,
         ⟨"00:00:01.000", "00:00:02.000", "cat"⟩] =
      [⟨"00:00:00.000", "00:00:01.000", "x the cat"⟩] ∧
    (∀ i, slidingOverlapAt (wordsOf "x the cat") (wordsOf "cat") i → i < 3) ∧
    startsWithL "x the cat".data "cat".data = false ∧
    startsWithL "cat".data "x the cat".data = false := by
  refine ⟨by decide, ?_, by decide, by decide⟩
  intro i hov
  have h1 : (wordsOf "cat").length = 1 := by decide
  have h2 := hov.2.1
  omega

/-- C4 amended: two consecutive valid records whose word overlap is shorter
than 3 words and whose normalised texts are unrelated in the stronger sense
that neither occurs inside the other (ruling out the substring/suffix merge
cases as well as the prefix one) are kept as two separate utterances. -/
theorem claim_C4_amended_no_false_merge (r1 r2 : RawCaption) (s1 e1 s2 e2 : ℤ)
    (hs1 : timestampToMillis r1.start = some s1) (he1 : timestampToMillis r1.end_ = some e1)
    (hs2 : timestampToMillis r2.start = some s2) (he2 : timestampToMillis r2.end_ = some e2)
    (ht1 : pyStrip r1.text ≠ "") (ht2 : pyStrip r2.text ≠ "")
    (hlt : s1 < s2)
    (hov : ∀ i, slidingOverlapAt (wordsOf r1.text) (wordsOf r2.text) i → i < 3)
    (hnc1 : isSubL (normWsL (pyStrip r2.text).data) (normWsL (pyStrip r1.text).data) = false)
    (hnc2 : isSubL (normWsL (pyStrip r1.text).data) (normWsL (pyStrip r2.text).data) = false) :
    deduplicate_overlapping_captions [r1, r2] =
      [⟨r1.start, r1.end_, pyStrip r1.text⟩, ⟨r2.start, r2.end_, pyStrip r2.text⟩] :=
  dedup_pair_unrelated r1 r2 s1 e1 s2 e2 hs1 he1 hs2 he2 ht1 ht2 hlt hnc1 hnc2

theorem claim_C4_amended_no_false_merge_witness :
    deduplicate_overlapping_captions
        [⟨"00:00:00.000", "00:00:01.000", "the cat"⟩,
         ⟨"00:00:01.000", "00:00:02.000", "the dog"⟩] =
      [⟨"00:00:00.000", "00:00:01.000", "the cat"⟩,
       ⟨"00:00:01.000", "00:00:02.000", "the dog"⟩] :=
  claim_C4_amended_no_false_merge
    ⟨"00:00:00.000", "00:00:01.000", "the cat"⟩ ⟨"00:00:01.000", "00:00:02.000", "the dog"⟩
    0 1000 1000 2000 (by decide) (by decide) (by decide) (by decide) (by decide) (by decide)
    (by decide)
    (fun i hov => by
      have h2 : i ≤ 2 := le_trans hov.2.1 (by decide)
      omega)
    (by decide) (by decide)

/-! ## Claim C6: the timestamp codec -/

theorem digitChar10_spec (k : ℕ) (hk : k ≤ 9) :
    isDigitC (digitChar10 k) = true ∧ (digitChar10 k).toNat - '0'.toNat = k ∧
      digitChar10 k ≠ ':' ∧ digitChar10 k ≠ '.' ∧ digitChar10 k ≠ '+' ∧ digitChar10 k ≠ '-' ∧
      isPyWs (digitChar10 k) = false := by
  interval_cases k <;> exact ⟨by decide, by decide, by decide, by decide, by decide, by decide,
    by decide⟩

theorem dropWhile_of_no_ws {l : List Char} (h : ∀ c ∈ l, isPyWs c = false) :
    l.dropWhile isPyWs = l := by
  cases l with
  | nil => rfl
  | cons c rest =>
    rw [List.dropWhile_cons, if_neg]
    rw [h c (List.mem_cons_self c rest)]
    simp

theorem pyStripL_of_no_ws {l : List Char} (h : ∀ c ∈ l, isPyWs c = false) :
    pyStripL l = l := by
  unfold pyStripL
  rw [dropWhile_of_no_ws h, dropWhile_of_no_ws (by intro c hc; exact h c (List.mem_reverse.1 hc)),
    List.reverse_reverse]

theorem splitChar_not_mem {sep : Char} {l : List Char} (h : sep ∉ l) :
    splitChar sep l = [l] := by
  induction l with
  | nil => rfl
  | cons c rest ih =>
    rw [splitChar, if_neg (by intro hc; exact h (hc ▸ List.mem_cons_self c rest))]
    rw [ih (fun hm => h (List.mem_cons_of_mem c hm))]

theorem splitChar_append_sep {sep : Char} {xs rest : List Char} (h : sep ∉ xs) :
    splitChar sep (xs ++ sep :: rest) = xs :: splitChar sep rest := by
  induction xs with
  | nil => simp [splitChar]
  | cons c xs ih =>
    rw [List.cons_append, splitChar,
      if_neg (by intro hc; exact h (hc ▸ List.mem_cons_self c xs))]
    rw [ih (fun hm => h (List.mem_cons_of_mem c hm))]

theorem pad2_facts (n : ℕ) (hn : n ≤ 99) :
    (∀ c ∈ pad2 n, isDigitC c = true ∧ c ≠ ':' ∧ c ≠ '.' ∧ c ≠ '+' ∧ c ≠ '-' ∧
      isPyWs c = false) ∧
    pyIntDigits (pad2 n) = some n := by
  have h1 := digitChar10_spec (n / 10) (by omega)
  have h2 := digitChar10_spec (n % 10) (by omega)
  constructor
  · intro c hc
    rcases List.mem_cons.1 hc with rfl | hc
    · exact ⟨h1.1, h1.2.2.1, h1.2.2.2.1, h1.2.2.2.2.1, h1.2.2.2.2.2.1, h1.2.2.2.2.2.2⟩
    · rcases List.mem_cons.1 hc with rfl | hc
      · exact ⟨h2.1, h2.2.2.1, h2.2.2.2.1, h2.2.2.2.2.1, h2.2.2.2.2.2.1, h2.2.2.2.2.2.2⟩
      · simp at hc
  · show pyIntDigits [digitChar10 (n / 10), digitChar10 (n % 10)] = some n
    rw [pyIntDigits, if_pos h1.1, intDigitsAux, if_pos h2.1, intDigitsAux, h1.2.1, h2.2.1]
    congr 1
    omega

theorem pad3_facts (n : ℕ) (hn : n ≤ 999) :
    (∀ c ∈ pad3 n, isDigitC c = true ∧ c ≠ ':' ∧ c ≠ '.' ∧ c ≠ '+' ∧ c ≠ '-' ∧
      isPyWs c = false) ∧
    pyIntDigits (pad3 n) = some n := by
  have h1 := digitChar10_spec (n / 100) (by omega)
  have h2 := digitChar10_spec (n / 10 % 10) (by omega)
  have h3 := digitChar10_spec (n % 10) (by omega)
  constructor
  · intro c hc
    rcases List.mem_cons.1 hc with rfl | hc
    · exact ⟨h1.1, h1.2.2.1, h1.2.2.2.1, h1.2.2.2.2.1, h1.2.2.2.2.2.1, h1.2.2.2.2.2.2⟩
    · rcases List.mem_cons.1 hc with rfl | hc
      · exact ⟨h2.1, h2.2.2.1, h2.2.2.2.1, h2.2.2.2.2.1, h2.2.2.2.2.2.1, h2.2.2.2.2.2.2⟩
      · rcases List.mem_cons.1 hc with rfl | hc
        · exact ⟨h3.1, h3.2.2.1, h3.2.2.2.1, h3.2.2.2.2.1, h3.2.2.2.2.2.1, h3.2.2.2.2.2.2⟩
        · simp at hc
  · show pyIntDigits [digitChar10 (n / 100), digitChar10 (n / 10 % 10), digitChar10 (n % 10)] =
      some n
    rw [pyIntDigits, if_pos h1.1, intDigitsAux, if_pos h2.1, intDigitsAux, if_pos h3.1,
      intDigitsAux, h1.2.1, h2.2.1, h3.2.1]
    congr 1
    omega

/-- `pyInt` on an all-digit, sign-free, whitespace-free field is
`pyIntDigits`. -/
theorem pyInt_of_digits {l : List Char}
    (hws : ∀ c ∈ l, isPyWs c = false)
    (hshape : ∀ c ∈ l, isDigitC c = true ∧ c ≠ '+' ∧ c ≠ '-') :
    pyInt l = (pyIntDigits l).map (fun n => (n : ℤ)) := by
  unfold pyInt
  rw [pyStripL_of_no_ws hws]
  cases l with
  | nil => rfl
  | cons c r =>
    have hc := hshape c (List.mem_cons_self c r)
    simp only [if_neg hc.2.1, if_neg hc.2.2]

theorem pyInt_pad2 (n : ℕ) (hn : n ≤ 99) : pyInt (pad2 n) = some (n : ℤ) := by
  obtain ⟨hc, hd⟩ := pad2_facts n hn
  rw [pyInt_of_digits (fun c h => (hc c h).2.2.2.2.2)
    (fun c h => ⟨(hc c h).1, (hc c h).2.2.2.1, (hc c h).2.2.2.2.1⟩), hd]
  rfl

theorem pyInt_pad3 (n : ℕ) (hn : n ≤ 999) : pyInt (pad3 n) = some (n : ℤ) := by
  obtain ⟨hc, hd⟩ := pad3_facts n hn
  rw [pyInt_of_digits (fun c h => (hc c h).2.2.2.2.2)
    (fun c h => ⟨(hc c h).1, (hc c h).2.2.2.1, (hc c h).2.2.2.2.1⟩), hd]
  rfl

theorem timestampToMillis_fmtTs (h m s ms : ℕ) (hh : h ≤ 99) (hm : m ≤ 99) (hs : s ≤ 99)
    (hms : ms ≤ 999) :
    timestampToMillis (fmtTs h m s ms) =
      some (1000 * (3600 * (h : ℤ) + 60 * m + s) + ms) := by
  obtain ⟨hpc2h, -⟩ := pad2_facts h hh
  obtain ⟨hpc2m, -⟩ := pad2_facts m hm
  obtain ⟨hpc2s, -⟩ := pad2_facts s hs
  obtain ⟨hpc3, -⟩ := pad3_facts ms hms
  have hdata : (fmtTs h m s ms).data =
      pad2 h ++ ':' :: (pad2 m ++ ':' :: (pad2 s ++ '.' :: pad3 ms)) := by
    simp [fmtTs]
  have hdot : splitChar '.' (pad2 s ++ '.' :: pad3 ms) = [pad2 s, pad3 ms] := by
    rw [splitChar_append_sep (by intro hmem; exact (hpc2s _ hmem).2.2.1 rfl)]
    rw [splitChar_not_mem (by intro hmem; exact (hpc3 _ hmem).2.2.1 rfl)]
  unfold timestampToMillis
  rw [hdata]
  rw [splitChar_append_sep (by intro hmem; exact (hpc2h _ hmem).2.1 rfl)]
  rw [splitChar_append_sep (by intro hmem; exact (hpc2m _ hmem).2.1 rfl)]
  rw [splitChar_not_mem (by
    intro hmem
    rcases List.mem_append.1 hmem with h1 | h1
    · exact (hpc2s _ h1).2.1 rfl
    · rcases List.mem_cons.1 h1 with h2 | h2
      · exact absurd h2.symm (by decide)
      · exact (hpc3 _ h2).2.1 rfl)]
  simp only [hdot, pyInt_pad2 h hh, pyInt_pad2 m hm, pyInt_pad2 s hs, pyInt_pad3 ms hms,
    Option.map_some']

theorem timestampToMillis_fmtTsNoMs (h m s : ℕ) (hh : h ≤ 99) (hm : m ≤ 99) (hs : s ≤ 99) :
    timestampToMillis (fmtTsNoMs h m s) = some (1000 * (3600 * (h : ℤ) + 60 * m + s)) := by
  obtain ⟨hpc2h, -⟩ := pad2_facts h hh
  obtain ⟨hpc2m, -⟩ := pad2_facts m hm
  obtain ⟨hpc2s, -⟩ := pad2_facts s hs
  have hdata : (fmtTsNoMs h m s).data = pad2 h ++ ':' :: (pad2 m ++ ':' :: pad2 s) := by
    simp [fmtTsNoMs]
  have hdot : splitChar '.' (pad2 s) = [pad2 s] :=
    splitChar_not_mem (by intro hmem; exact (hpc2s _ hmem).2.2.1 rfl)
  unfold timestampToMillis
  rw [hdata]
  rw [splitChar_append_sep (by intro hmem; exact (hpc2h _ hmem).2.1 rfl)]
  rw [splitChar_append_sep (by intro hmem; exact (hpc2m _ hmem).2.1 rfl)]
  rw [splitChar_not_mem (by intro hmem; exact (hpc2s _ hmem).2.1 rfl)]
  simp only [hdot, pyInt_pad2 h hh, pyInt_pad2 m hm, pyInt_pad2 s hs]

/-- C6: the timestamp codec — for every well-formed `HH:MM:SS.mmm` (and
`HH:MM:SS`, milliseconds defaulting to 0), parsing returns
`h*3600 + m*60 + s + ms/1000` seconds; and parsing fails exactly when the
colon-separated component count is not 3, the hours/minutes components are
non-numeric, or the seconds component is bad (empty before the optional `.`,
non-numeric, or with a non-numeric millisecond field). -/
theorem claim_C6_timestamp_codec :
    (∀ h m s ms : ℕ, h ≤ 99 → m ≤ 99 → s ≤ 99 → ms ≤ 999 →
      timestamp_to_seconds (fmtTs h m s ms) =
        some ((h : ℚ) * 3600 + m * 60 + s + ms / 1000)) ∧
    (∀ h m s : ℕ, h ≤ 99 → m ≤ 99 → s ≤ 99 →
      timestamp_to_seconds (fmtTsNoMs h m s) = some ((h : ℚ) * 3600 + m * 60 + s)) ∧
    (∀ ts : String, timestamp_to_seconds ts = none ↔ malformedTimestamp ts = true) := by
  refine ⟨?_, ?_, ?_⟩
  · intro h m s ms hh hm hs hms
    rw [timestamp_to_seconds, timestampToMillis_fmtTs h m s ms hh hm hs hms]
    simp only [Option.map_some']
    congr 1
    push_cast
    ring
  · intro h m s hh hm hs
    rw [timestamp_to_seconds, timestampToMillis_fmtTsNoMs h m s hh hm hs]
    simp only [Option.map_some']
    congr 1
    push_cast
    ring
  · intro ts
    rw [timestamp_to_seconds, Option.map_eq_none']
    unfold timestampToMillis malformedTimestamp
    rcases hu : splitChar ':' ts.data with - | ⟨p0, - | ⟨p1, - | ⟨p2, - | ⟨p3, rest⟩⟩⟩⟩
    · simp
    · simp
    · simp
    · cases hp0 : pyInt p0 with
      | none => simp [hp0]
      | some h0 =>
        cases hp1 : pyInt p1 with
        | none => simp [hp0, hp1]
        | some h1 =>
          rcases hsp : splitChar '.' p2 with - | ⟨s0, - | ⟨ms0, rsp⟩⟩
          · simp [hp0, hp1, hsp]
          · cases hps : pyInt s0 with
            | none => simp [hp0, hp1, hsp, hps]
            | some sv => simp [hp0, hp1, hsp, hps]
          · cases hps : pyInt s0 with
            | none => simp [hp0, hp1, hsp, hps]
            | some sv =>
              cases hpm : pyInt ms0 with
              | none => simp [hp0, hp1, hsp, hps, hpm]
              | some mv => simp [hp0, hp1, hsp, hps, hpm]
    · simp

theorem claim_C6_timestamp_codec_witness :
    timestamp_to_seconds (fmtTs 12 34 56 789) =
      some ((12 : ℚ) * 3600 + 34 * 60 + 56 + 789 / 1000) :=
  claim_C6_timestamp_codec.1 12 34 56 789 (by decide) (by decide) (by decide) (by decide)

/-! ## Claim C7: language / track resolution -/

/-- C7: for a specific (non-auto) requested language, resolution matches the
request against the available tags by exact IETF tag first, then by base
subtag (text before the first hyphen) case-insensitively (taking the first
such tag); and with manual preference on, a matching manual track is
selected whenever one exists, with fallback to the automatic source
otherwise. -/
theorem claim_C7_language_resolution :
    (∀ (req : String) (avail : List String),
      req ∈ avail → find_matching_language req avail = some req) ∧
    (∀ (req : String) (avail : List String),
      req ∉ avail →
        find_matching_language req avail =
          avail.find? (fun al =>
            extract_base_language_code al = extract_base_language_code req)) ∧
    (∀ (md : VideoMeta) (lang : String),
      ¬(pyLower lang = "auto" ∨ pyLower lang = "auto-detect" ∨ pyLower lang = "") →
        find_caption_track md lang true =
          match resolveFromSource md.subtitles lang with
          | some p => some ⟨p.2.url, p.2.ext, "manual", p.1⟩
          | none =>
            match resolveFromSource md.automatic_captions lang with
            | some p => some ⟨p.2.url, p.2.ext, "auto", p.1⟩
            | none => none) := by
  refine ⟨?_, ?_, ?_⟩
  · intro req avail h
    unfold find_matching_language
    rw [if_pos h]
  · intro req avail h
    unfold find_matching_language
    rw [if_neg h]
  · intro md lang hlang
    unfold find_caption_track
    rw [if_neg hlang]
    cases hm : resolveFromSource md.subtitles lang with
    | some p => simp [hm]
    | none =>
      cases ha : resolveFromSource md.automatic_captions lang with
      | some p => simp [hm, ha]
      | none => simp [hm, ha]

theorem claim_C7_language_resolution_witness :
    find_caption_track
        ⟨[("en-US", [⟨"json3", "u1"⟩, ⟨"vtt", "u2"⟩])], [("en", [⟨"vtt", "u3"⟩])]⟩ "en" true =
      some ⟨"u2", "vtt", "manual", "en-US"⟩ :=
  (claim_C7_language_resolution.2.2
      ⟨[("en-US", [⟨"json3", "u1"⟩, ⟨"vtt", "u2"⟩])], [("en", [⟨"vtt", "u3"⟩])]⟩ "en"
      (by decide)).trans (by decide)

/-! ## Claim C5: infrastructure — characters and canonical timestamps -/

theorem isDigitC_bounds {c : Char} (h : isDigitC c = true) : '0' ≤ c ∧ c ≤ '9' := by
  unfold isDigitC at h
  rw [Bool.and_eq_true, decide_eq_true_eq, decide_eq_true_eq] at h
  exact h

theorem isDigitC_ne {c : Char} (h : isDigitC c = true) (d : Char) (hd : d < '0' ∨ '9' < d) :
    c ≠ d := by
  rintro rfl
  obtain ⟨h1, h2⟩ := isDigitC_bounds h
  rcases hd with hd | hd
  · exact absurd h1 (not_le.mpr hd)
  · exact absurd h2 (not_le.mpr hd)

theorem isDigitC_not_ws {c : Char} (h : isDigitC c = true) : isPyWs c = false := by
  unfold isPyWs
  simp [isDigitC_ne h ' ' (Or.inl (by decide)), isDigitC_ne h '\t' (Or.inl (by decide)),
    isDigitC_ne h '\n' (Or.inl (by decide)), isDigitC_ne h '\r' (Or.inl (by decide)),
    isDigitC_ne h '\x0b' (Or.inl (by decide)), isDigitC_ne h '\x0c' (Or.inl (by decide))]

theorem stringMk_data (s : String) : (⟨s.data⟩ : String) = s := by
  cases s
  rfl

theorem isCanonicalTs_elim {s : String} (hs : isCanonicalTs s = true) :
    ∃ d1 d2 d3 d4 d5 d6 d7 d8 d9 : Char,
      s.data = [d1, d2, ':', d3, d4, ':', d5, d6, '.', d7, d8, d9] ∧
      isDigitC d1 = true ∧ isDigitC d2 = true ∧ isDigitC d3 = true ∧ isDigitC d4 = true ∧
      isDigitC d5 = true ∧ isDigitC d6 = true ∧ isDigitC d7 = true ∧ isDigitC d8 = true ∧
      isDigitC d9 = true := by
  unfold isCanonicalTs at hs
  split at hs
  · rename_i a b c1 c d c2 e f c3 g h2 i heq
    simp only [Bool.and_eq_true, decide_eq_true_eq] at hs
    obtain ⟨⟨⟨⟨⟨⟨⟨⟨⟨⟨⟨hd1, hd2⟩, hc1⟩, hd3⟩, hd4⟩, hc2⟩, hd5⟩, hd6⟩, hc3⟩, hd7⟩, hd8⟩, hd9⟩ := hs
    subst hc1
    subst hc2
    subst hc3
    exact ⟨a, b, c, d, e, f, g, h2, i, heq, hd1, hd2, hd3, hd4, hd5, hd6, hd7, hd8, hd9⟩
  · exact absurd hs (by decide)

theorem canonical_group_dot {s : String} (hs : isCanonicalTs s = true) (rest : List Char) :
    matchTsGroup (s.data ++ rest) = some (s.data, rest) := by
  obtain ⟨d1, d2, d3, d4, d5, d6, d7, d8, d9, hdata, h1, h2, h3, h4, h5, h6, h7, h8, h9⟩ :=
    isCanonicalTs_elim hs
  rw [hdata]
  simp [matchTsGroup, h1, h2, h3, h4, h5, h6, h7, h8, h9]

theorem canonical_dotToComma {s : String} (hs : isCanonicalTs s = true) :
    ∃ d1 d2 d3 d4 d5 d6 d7 d8 d9 : Char,
      s.data = [d1, d2, ':', d3, d4, ':', d5, d6, '.', d7, d8, d9] ∧
      dotToComma s.data = [d1, d2, ':', d3, d4, ':', d5, d6, ',', d7, d8, d9] ∧
      isDigitC d1 = true ∧ isDigitC d2 = true ∧ isDigitC d3 = true ∧ isDigitC d4 = true ∧
      isDigitC d5 = true ∧ isDigitC d6 = true ∧ isDigitC d7 = true ∧ isDigitC d8 = true ∧
      isDigitC d9 = true := by
  obtain ⟨d1, d2, d3, d4, d5, d6, d7, d8, d9, hdata, h1, h2, h3, h4, h5, h6, h7, h8, h9⟩ :=
    isCanonicalTs_elim hs
  refine ⟨d1, d2, d3, d4, d5, d6, d7, d8, d9, hdata, ?_, h1, h2, h3, h4, h5, h6, h7, h8, h9⟩
  rw [hdata]
  simp [dotToComma, isDigitC_ne h1 '.' (Or.inl (by decide)),
    isDigitC_ne h2 '.' (Or.inl (by decide)), isDigitC_ne h3 '.' (Or.inl (by decide)),
    isDigitC_ne h4 '.' (Or.inl (by decide)), isDigitC_ne h5 '.' (Or.inl (by decide)),
    isDigitC_ne h6 '.' (Or.inl (by decide)), isDigitC_ne h7 '.' (Or.inl (by decide)),
    isDigitC_ne h8 '.' (Or.inl (by decide)), isDigitC_ne h9 '.' (Or.inl (by decide))]

theorem canonical_group_comma {s : String} (hs : isCanonicalTs s = true) (rest : List Char) :
    matchTsGroup (dotToComma s.data ++ rest) = some (dotToComma s.data, rest) := by
  obtain ⟨d1, d2, d3, d4, d5, d6, d7, d8, d9, -, hcomma, h1, h2, h3, h4, h5, h6, h7, h8, h9⟩ :=
    canonical_dotToComma hs
  rw [hcomma]
  simp [matchTsGroup, h1, h2, h3, h4, h5, h6, h7, h8, h9]

theorem canonical_commaToDot {s : String} (hs : isCanonicalTs s = true) :
    commaToDot s.data = s.data ∧ commaToDot (dotToComma s.data) = s.data := by
  obtain ⟨d1, d2, d3, d4, d5, d6, d7, d8, d9, hdata, hcomma, h1, h2, h3, h4, h5, h6, h7, h8, h9⟩ :=
    canonical_dotToComma hs
  constructor
  · rw [hdata]
    simp [commaToDot, isDigitC_ne h1 ',' (Or.inl (by decide)),
      isDigitC_ne h2 ',' (Or.inl (by decide)), isDigitC_ne h3 ',' (Or.inl (by decide)),
      isDigitC_ne h4 ',' (Or.inl (by decide)), isDigitC_ne h5 ',' (Or.inl (by decide)),
      isDigitC_ne h6 ',' (Or.inl (by decide)), isDigitC_ne h7 ',' (Or.inl (by decide)),
      isDigitC_ne h8 ',' (Or.inl (by decide)), isDigitC_ne h9 ',' (Or.inl (by decide))]
  · rw [hcomma, hdata]
    simp [commaToDot, isDigitC_ne h1 ',' (Or.inl (by decide)),
      isDigitC_ne h2 ',' (Or.inl (by decide)), isDigitC_ne h3 ',' (Or.inl (by decide)),
      isDigitC_ne h4 ',' (Or.inl (by decide)), isDigitC_ne h5 ',' (Or.inl (by decide)),
      isDigitC_ne h6 ',' (Or.inl (by decide)), isDigitC_ne h7 ',' (Or.inl (by decide)),
      isDigitC_ne h8 ',' (Or.inl (by decide)), isDigitC_ne h9 ',' (Or.inl (by decide))]

/-- The characters of a canonical timestamp: never a newline, never
whitespace, and the first one is a digit (so header/cue tests fail). -/
theorem canonical_chars {s : String} (hs : isCanonicalTs s = true) :
    (∀ ch ∈ s.data, ch ≠ '\n' ∧ isPyWs ch = false) ∧
      (∃ d rest2, s.data = d :: rest2 ∧ isDigitC d = true) := by
  obtain ⟨d1, d2, d3, d4, d5, d6, d7, d8, d9, hdata, h1, h2, h3, h4, h5, h6, h7, h8, h9⟩ :=
    isCanonicalTs_elim hs
  constructor
  · intro ch hch
    rw [hdata] at hch
    have hcolon : (':' : Char) ≠ '\n' ∧ isPyWs ':' = false := by constructor <;> decide
    have hdot : ('.' : Char) ≠ '\n' ∧ isPyWs '.' = false := by constructor <;> decide
    simp only [List.mem_cons, List.not_mem_nil, or_false] at hch
    rcases hch with rfl | rfl | rfl | rfl | rfl | rfl | rfl | rfl | rfl | rfl | rfl | rfl
    · exact ⟨isDigitC_ne h1 '\n' (Or.inl (by decide)), isDigitC_not_ws h1⟩
    · exact ⟨isDigitC_ne h2 '\n' (Or.inl (by decide)), isDigitC_not_ws h2⟩
    · exact hcolon
    · exact ⟨isDigitC_ne h3 '\n' (Or.inl (by decide)), isDigitC_not_ws h3⟩
    · exact ⟨isDigitC_ne h4 '\n' (Or.inl (by decide)), isDigitC_not_ws h4⟩
    · exact hcolon
    · exact ⟨isDigitC_ne h5 '\n' (Or.inl (by decide)), isDigitC_not_ws h5⟩
    · exact ⟨isDigitC_ne h6 '\n' (Or.inl (by decide)), isDigitC_not_ws h6⟩
    · exact hdot
    · exact ⟨isDigitC_ne h7 '\n' (Or.inl (by decide)), isDigitC_not_ws h7⟩
    · exact ⟨isDigitC_ne h8 '\n' (Or.inl (by decide)), isDigitC_not_ws h8⟩
    · exact ⟨isDigitC_ne h9 '\n' (Or.inl (by decide)), isDigitC_not_ws h9⟩
  · exact ⟨d1, _, hdata, h1⟩

theorem pyStripL_eq_self_of_ends {l : List Char}
    (h1 : ∀ c, l.head? = some c → isPyWs c = false)
    (h2 : ∀ c, l.getLast? = some c → isPyWs c = false) : pyStripL l = l := by
  cases l with
  | nil => rfl
  | cons c t =>
    unfold pyStripL
    rw [List.dropWhile_cons, if_neg (by simp [h1 c rfl])]
    cases hrev : (c :: t).reverse with
    | nil => exact absurd hrev (by simp)
    | cons d rt =>
      have hd : (c :: t).getLast? = some d := by
        rw [← List.head?_reverse, hrev]
        rfl
      rw [List.dropWhile_cons, if_neg (by simp [h2 d hd]), ← hrev, List.reverse_reverse]

theorem startsWithL_head_ne {c d : Char} {p l : List Char} (h : c ≠ d) :
    startsWithL (c :: p) (d :: l) = false := by
  simp [startsWithL, h]

theorem matchTimestampLine_dot {s e : String} (hs : isCanonicalTs s = true)
    (he : isCanonicalTs e = true) :
    matchTimestampLine (s.data ++ " --> ".data ++ e.data) = some (s, e) := by
  obtain ⟨-, de, reste, hedata, hde⟩ := canonical_chars he
  have hdwe : e.data.dropWhile isPyWs = e.data := by
    rw [hedata, List.dropWhile_cons, if_neg (by simp [isDigitC_not_ws hde])]
  have hg2 := canonical_group_dot he []
  rw [List.append_nil] at hg2
  have harr : ((" --> " : String).data ++ e.data).dropWhile isPyWs =
      '-' :: '-' :: '>' :: (' ' :: e.data) := rfl
  have hsp : (' ' :: e.data).dropWhile isPyWs = e.data.dropWhile isPyWs := rfl
  simp only [matchTimestampLine, List.append_assoc,
    canonical_group_dot hs (" --> ".data ++ e.data), harr, hsp, hdwe, hg2]
  rw [(canonical_commaToDot hs).1, (canonical_commaToDot he).1, stringMk_data, stringMk_data]

theorem matchTimestampLine_comma {s e : String} (hs : isCanonicalTs s = true)
    (he : isCanonicalTs e = true) :
    matchTimestampLine (dotToComma s.data ++ " --> ".data ++ dotToComma e.data) =
      some (s, e) := by
  obtain ⟨de1, de2, de3, de4, de5, de6, de7, de8, de9, -, hecomma, he1, -⟩ :=
    canonical_dotToComma he
  have hdwe : (dotToComma e.data).dropWhile isPyWs = dotToComma e.data := by
    rw [hecomma, List.dropWhile_cons, if_neg (by simp [isDigitC_not_ws he1])]
  have hg2 := canonical_group_comma he []
  rw [List.append_nil] at hg2
  have harr : ((" --> " : String).data ++ dotToComma e.data).dropWhile isPyWs =
      '-' :: '-' :: '>' :: (' ' :: dotToComma e.data) := rfl
  have hsp : (' ' :: dotToComma e.data).dropWhile isPyWs =
      (dotToComma e.data).dropWhile isPyWs := rfl
  simp only [matchTimestampLine, List.append_assoc,
    canonical_group_comma hs (" --> ".data ++ dotToComma e.data), harr, hsp, hdwe, hg2]
  rw [(canonical_commaToDot hs).2, (canonical_commaToDot he).2, stringMk_data, stringMk_data]

theorem cleanTextBase_elim {t : String} (h : cleanTextBase t = true) :
    t.data ≠ [] ∧ pyStripL t.data = t.data ∧
      (∀ c ∈ t.data, c ≠ '\n' ∧ c ≠ '&' ∧ c ≠ '<') := by
  unfold cleanTextBase at h
  simp only [Bool.and_eq_true, decide_eq_true_eq, List.all_eq_true] at h
  obtain ⟨⟨hne, hstrip⟩, hall⟩ := h
  refine ⟨hne, hstrip, fun c hc => ?_⟩
  have h2 := hall c hc
  simp only [Bool.and_eq_true, decide_eq_true_eq] at h2
  exact ⟨h2.1.1, h2.1.2, h2.2⟩

theorem cleanTextVtt_elim {t : String} (h : cleanTextVtt t = true) :
    cleanTextBase t = true ∧ isCueIdLine t.data = false ∧
      startsWithL "WEBVTT".data t.data = false ∧ startsWithL "NOTE".data t.data = false ∧
      matchTimestampLine t.data = none := by
  unfold cleanTextVtt at h
  simp only [Bool.and_eq_true, Bool.not_eq_true', Option.isNone_iff_eq_none] at h
  exact ⟨h.1.1.1.1, h.1.1.1.2, h.1.1.2, h.1.2, h.2⟩

theorem htmlUnescapeFuel_no_amp :
    ∀ (fuel : ℕ) (l : List Char), (∀ ch ∈ l, ch ≠ '&') → htmlUnescapeFuel fuel l = l := by
  intro fuel
  induction fuel with
  | zero => intro l h; rfl
  | succ f ih =>
    intro l h
    cases l with
    | nil => rfl
    | cons c rest =>
      have hc : c ≠ '&' := h c (List.mem_cons_self c rest)
      rw [htmlUnescapeFuel, if_neg hc, ih rest (fun ch hm => h ch (List.mem_cons_of_mem c hm))]

theorem htmlUnescape_no_amp {l : List Char} (h : ∀ ch ∈ l, ch ≠ '&') : htmlUnescape l = l :=
  htmlUnescapeFuel_no_amp l.length l h

theorem stripTagsFuel_no_lt {l : List Char} (h : ∀ ch ∈ l, ch ≠ '<') :
    ∀ fuel, stripTagsFuel fuel l = l := by
  induction l with
  | nil => intro fuel; cases fuel <;> rfl
  | cons c rest ih =>
    intro fuel
    have hc : c ≠ '<' := h c (List.mem_cons_self c rest)
    have ih2 := ih (fun ch hm => h ch (List.mem_cons_of_mem c hm))
    cases fuel with
    | zero => rfl
    | succ f =>
      rw [stripTagsFuel.eq_def]
      split
      · rfl
      · rename_i heq; exact absurd heq (by simp)
      · rename_i heq h2
        injection h2 with h3 h4
        exact absurd h3 hc
      · rename_i f2 c2 rest2 h2 h3
        injection h3 with h4 h5
        rw [← h4, ← h5, ih2]

theorem stripTags_no_lt {l : List Char} (h : ∀ ch ∈ l, ch ≠ '<') : stripTags l = l :=
  stripTagsFuel_no_lt h l.length

/-- On clean text the VTT/SRT finalisation chain is the identity. -/
theorem finalize_clean {t : String} (h : cleanTextBase t = true) : finalizeText t.data = t := by
  obtain ⟨hne, hstrip, hall⟩ := cleanTextBase_elim h
  unfold finalizeText
  rw [htmlUnescape_no_amp (fun ch hm => (hall ch hm).2.1),
    stripTags_no_lt (fun ch hm => (hall ch hm).2.2), hstrip, stringMk_data]

/-! ## Claim C5: the VTT round trip -/

theorem data_mk (l : List Char) : (⟨l⟩ : String).data = l := rfl

theorem splitChar_joinWith {sep : Char} :
    ∀ xss : List (List Char), xss ≠ [] → (∀ x ∈ xss, sep ∉ x) →
      splitChar sep (joinWith [sep] xss) = xss := by
  intro xss
  induction xss with
  | nil => intro h; exact absurd rfl h
  | cons x rest ih =>
    intro _ hmem
    cases rest with
    | nil => exact splitChar_not_mem (hmem x (List.mem_cons_self x []))
    | cons y t =>
      have hx : sep ∉ x := hmem x (List.mem_cons_self x (y :: t))
      have hjoin : joinWith [sep] (x :: y :: t) = x ++ sep :: joinWith [sep] (y :: t) := by
        rw [joinWith] <;> simp
      rw [hjoin, splitChar_append_sep hx,
        ih (List.cons_ne_nil y t) (fun z hz => hmem z (List.mem_cons_of_mem x hz))]

/-- Facts about an emitted VTT timestamp line: it survives `strip`, is not
skipped as blank/header, and contains no newline. -/
theorem vtt_tsline_facts {s e : String} (hs : isCanonicalTs s = true)
    (he : isCanonicalTs e = true) :
    pyStripL (s.data ++ " --> ".data ++ e.data) = s.data ++ " --> ".data ++ e.data ∧
    s.data ++ " --> ".data ++ e.data ≠ [] ∧
    startsWithL "WEBVTT".data (s.data ++ " --> ".data ++ e.data) = false ∧
    startsWithL "NOTE".data (s.data ++ " --> ".data ++ e.data) = false ∧
    (∀ ch ∈ s.data ++ " --> ".data ++ e.data, ch ≠ '\n') := by
  obtain ⟨hchars_s, ds, rs, hsdata, hds⟩ := canonical_chars hs
  obtain ⟨hchars_e, -, -, -, -⟩ := canonical_chars he
  obtain ⟨e1, e2, e3, e4, e5, e6, e7, e8, e9, hedata2, -, -, -, -, -, -, -, -, hE9⟩ :=
    isCanonicalTs_elim he
  have hhead : (s.data ++ " --> ".data ++ e.data).head? = some ds := by
    rw [hsdata]
    rfl
  have hlast : (s.data ++ " --> ".data ++ e.data).getLast? = some e9 := by
    rw [List.getLast?_append_of_ne_nil _ (by rw [hedata2]; simp), hedata2]
    rfl
  refine ⟨?_, ?_, ?_, ?_, ?_⟩
  · refine pyStripL_eq_self_of_ends (fun ch hch => ?_) (fun ch hch => ?_)
    · rw [hhead] at hch
      injection hch with h1
      rw [← h1]
      exact isDigitC_not_ws hds
    · rw [hlast] at hch
      injection hch with h1
      rw [← h1]
      exact isDigitC_not_ws hE9
  · rw [hsdata]
    simp
  · rw [hsdata, List.cons_append, List.cons_append]
    exact startsWithL_head_ne (Ne.symm (isDigitC_ne hds 'W' (Or.inr (by decide))))
  · rw [hsdata, List.cons_append, List.cons_append]
    exact startsWithL_head_ne (Ne.symm (isDigitC_ne hds 'N' (Or.inr (by decide))))
  · intro ch hch
    rcases List.mem_append.1 hch with h1 | h1
    · rcases List.mem_append.1 h1 with h2 | h2
      · exact (hchars_s ch h2).1
      · have harrow : ∀ ch ∈ (" --> " : String).data, ch ≠ '\n' := by decide
        exact harrow ch h2
    · exact (hchars_e ch h1).1

/-- One caption's three emitted lines advance the VTT scan by exactly one
record: the open caption (if any) is emitted finalized, and the scan
continues with this caption open and its text accumulated. -/
theorem parseVTTAux_step {c : RawCaption} (hs : isCanonicalTs c.start = true)
    (he : isCanonicalTs c.end_ = true) (ht : cleanTextVtt c.text = true)
    (cur : Option (String × String × List Char)) (rest : List (List Char)) :
    parseVTTAux cur
        ((c.start.data ++ " --> ".data ++ c.end_.data) :: c.text.data :: [] :: rest) =
      (match cur with
        | some (s0, e0, t0) => [(⟨s0, e0, finalizeText t0⟩ : RawCaption)]
        | none => []) ++ parseVTTAux (some (c.start, c.end_, c.text.data)) rest := by
  obtain ⟨hstrip, hne, hW, hN, -⟩ := vtt_tsline_facts hs he
  have hmtl := matchTimestampLine_dot hs he
  obtain ⟨hbase, hcue, hWt, hNt, hmt_t⟩ := cleanTextVtt_elim ht
  obtain ⟨htne, htstrip, -⟩ := cleanTextBase_elim hbase
  have hnil : pyStripL ([] : List Char) = [] := rfl
  simp only [parseVTTAux, hstrip, htstrip, hnil, hne, hW, hN, hmtl, hcue, hWt, hNt, hmt_t,
    decide_False, decide_True, Bool.false_or, Bool.or_false, Bool.or_self, if_false, if_true,
    ne_eq, not_false_eq_true, decide_eq_true_eq]
  simp [hne, htne]

theorem parseVTTAux_flat :
    ∀ l : List RawCaption,
      (∀ r ∈ l, isCanonicalTs r.start = true ∧ isCanonicalTs r.end_ = true ∧
        cleanTextVtt r.text = true) →
      ∀ cur, parseVTTAux cur
          (l.flatMap (fun c => [c.start.data ++ " --> ".data ++ c.end_.data, c.text.data, []])) =
        (match cur with
          | some (s0, e0, t0) => [(⟨s0, e0, finalizeText t0⟩ : RawCaption)]
          | none => []) ++ l := by
  intro l
  induction l with
  | nil =>
    intro _ cur
    cases cur with
    | none => rfl
    | some p =>
      rcases p with ⟨s0, e0, t0⟩
      rfl
  | cons c l ih =>
    intro hl cur
    obtain ⟨hcs, hce, hct⟩ := hl c (List.mem_cons_self c l)
    rw [List.flatMap_cons, List.cons_append, List.cons_append, List.cons_append,
      List.nil_append]
    rw [parseVTTAux_step hcs hce hct cur _]
    rw [ih (fun r hr => hl r (List.mem_cons_of_mem c hr)) (some (c.start, c.end_, c.text.data))]
    simp [finalize_clean (cleanTextVtt_elim hct).1]

/-- The raw VTT scan inverts `convert_to_vtt` on clean caption lists. -/
theorem parseVTTRecords_convert (l : List RawCaption)
    (hl : ∀ r ∈ l, isCanonicalTs r.start = true ∧ isCanonicalTs r.end_ = true ∧
      cleanTextVtt r.text = true) :
    parseVTTRecords (convert_to_vtt l) = l := by
  unfold parseVTTRecords convert_to_vtt
  rw [data_mk]
  rw [splitChar_joinWith _ (by simp) ?hmem]
  case hmem =>
    intro x hx
    rcases List.mem_cons.1 hx with rfl | hx
    · decide
    · rcases List.mem_cons.1 hx with rfl | hx
      · simp
      · rw [List.mem_flatMap] at hx
        obtain ⟨c, hc, hline⟩ := hx
        obtain ⟨hcs, hce, hct⟩ := hl c hc
        rcases List.mem_cons.1 hline with rfl | hline
        · intro hmem
          exact ((vtt_tsline_facts hcs hce).2.2.2.2 '\n' hmem) rfl
        · rcases List.mem_cons.1 hline with rfl | hline
          · intro hmem
            exact ((cleanTextBase_elim (cleanTextVtt_elim hct).1).2.2 '\n' hmem).1 rfl
          · rcases List.mem_cons.1 hline with rfl | hline
            · simp
            · simp at hline
  have hskip : parseVTTAux none ("WEBVTT".data :: [] ::
      l.flatMap (fun c => [c.start.data ++ " --> ".data ++ c.end_.data, c.text.data, []])) =
      parseVTTAux none
        (l.flatMap (fun c => [c.start.data ++ " --> ".data ++ c.end_.data, c.text.data, []])) :=
    rfl
  rw [hskip, parseVTTAux_flat l hl none]
  rfl

/-! ## Claim C5: the SRT round trip — list surgery -/

theorem strip_self_getLast {l : List Char} (hl : pyStripL l = l) (hne : l ≠ []) :
    ∀ c, l.getLast? = some c → isPyWs c = false := by
  intro c hc
  by_contra hws
  rw [Bool.not_eq_false] at hws
  have hlen : (pyStripL l).length = l.length := by rw [hl]
  cases hd : l.dropWhile isPyWs with
  | nil =>
    have : pyStripL l = [] := by
      unfold pyStripL
      rw [hd]
      rfl
    rw [this] at hl
    exact hne hl.symm
  | cons a t =>
    obtain ⟨pre, hpre⟩ : l.dropWhile isPyWs <:+ l := List.dropWhile_suffix isPyWs
    have hdne : l.dropWhile isPyWs ≠ [] := by rw [hd]; simp
    have hlast : (l.dropWhile isPyWs).getLast? = some c := by
      have hc2 := hc
      rw [← hpre] at hc2
      rwa [List.getLast?_append_of_ne_nil _ hdne] at hc2
    cases hrev : (l.dropWhile isPyWs).reverse with
    | nil =>
      rw [List.reverse_eq_nil_iff] at hrev
      exact hdne hrev
    | cons c2 u =>
      have hc2 : c2 = c := by
        have := List.head?_reverse (l.dropWhile isPyWs)
        rw [hrev, hlast] at this
        injection this
      have hdrop : (l.dropWhile isPyWs).reverse.dropWhile isPyWs = u.dropWhile isPyWs := by
        rw [hrev, List.dropWhile_cons, if_pos (by rw [hc2, hws])]
      have hlen2 : (pyStripL l).length ≤ u.length := by
        unfold pyStripL
        rw [hdrop, List.length_reverse]
        exact (List.dropWhile_suffix isPyWs).length_le
      have hlen3 : u.length + 1 = (l.dropWhile isPyWs).length := by
        have := congrArg List.length hrev
        simp at this
        omega
      have hlen4 : (l.dropWhile isPyWs).length ≤ l.length :=
        (List.dropWhile_suffix isPyWs).length_le
      omega

theorem pyStripL_append_nl {j : List Char} (hne : j ≠ [])
    (hhead : ∀ c, j.head? = some c → isPyWs c = false)
    (hlast : ∀ c, j.getLast? = some c → isPyWs c = false) :
    pyStripL (j ++ ['\n']) = j := by
  cases j with
  | nil => exact absurd rfl hne
  | cons c t =>
    unfold pyStripL
    rw [List.cons_append, List.dropWhile_cons, if_neg (by simp [hhead c rfl])]
    rw [show (c :: (t ++ ['\n'])) = (c :: t) ++ ['\n'] from rfl, List.reverse_append]
    rw [show ((['\n'] : List Char).reverse ++ (c :: t).reverse) =
      '\n' :: (c :: t).reverse from rfl]
    rw [List.dropWhile_cons, if_pos (show isPyWs '\n' = true from rfl)]
    cases hrev : (c :: t).reverse with
    | nil => exact absurd hrev (by simp)
    | cons d rt =>
      have hd : (c :: t).getLast? = some d := by
        rw [← List.head?_reverse, hrev]
        rfl
      rw [List.dropWhile_cons, if_neg (by simp [hlast d hd]), ← hrev, List.reverse_reverse]

theorem noNlNl_tail {c : Char} {rest : List Char} (h : noNlNl (c :: rest) = true) :
    noNlNl rest = true := by
  rw [noNlNl.eq_def] at h
  split at h
  · rename_i heq; exact absurd heq (by simp)
  · exact absurd h (by decide)
  · rename_i c2 rest2 heq
    injection heq with h1 h2
    rw [h2]
    exact h

theorem noNlNl_of_no_nl {l : List Char} (h : ∀ ch ∈ l, ch ≠ '\n') : noNlNl l = true := by
  induction l with
  | nil => rfl
  | cons c rest ih =>
    have hc : c ≠ '\n' := h c (List.mem_cons_self c rest)
    rw [noNlNl.eq_def]
    split
    · rfl
    · rename_i heq
      injection heq with h1 h2
      exact absurd h1 hc
    · rename_i c2 rest2 heq
      injection heq with h1 h2
      subst h2
      exact ih (fun ch hm => h ch (List.mem_cons_of_mem c hm))

theorem noNlNl_append_sep {a b : List Char} (ha : ∀ ch ∈ a, ch ≠ '\n')
    (hb : noNlNl b = true) (hbh : ∀ c, b.head? = some c → c ≠ '\n') :
    noNlNl (a ++ '\n' :: b) = true := by
  induction a with
  | nil =>
    simp only [List.nil_append]
    cases b with
    | nil => rfl
    | cons d bt =>
      have hd : d ≠ '\n' := hbh d rfl
      rw [noNlNl.eq_def]
      split
      · rfl
      · rename_i heq
        injection heq with h1 h2
        injection h2 with h3 h4
        exact absurd h3 hd
      · rename_i c2 rest2 heq
        injection heq with h1 h2
        subst h2
        exact hb
  | cons c a2 ih =>
    have hc : c ≠ '\n' := ha c (List.mem_cons_self c a2)
    rw [List.cons_append, noNlNl.eq_def]
    split
    · rfl
    · rename_i heq
      injection heq with h1 h2
      exact absurd h1 hc
    · rename_i c2 rest2 heq
      injection heq with h1 h2
      subst h2
      exact ih (fun ch hm => ha ch (List.mem_cons_of_mem c hm))

theorem splitNlNl_cons_safe {c : Char} {L : List Char}
    (h : ¬(c = '\n' ∧ L.head? = some '\n')) :
    splitNlNl (c :: L) =
      match splitNlNl L with
      | [] => [[c]]
      | h2 :: t2 => (c :: h2) :: t2 := by
  rw [splitNlNl.eq_def]
  split
  · rename_i heq
    exact absurd heq (by simp)
  · rename_i rest2 heq
    injection heq with h1 h2
    exact absurd ⟨h1, by rw [h2]; rfl⟩ h
  · rename_i c2 rest2 heq
    injection heq with h1 h2
    rw [h1, h2]

theorem splitNlNl_no {L : List Char} (h : noNlNl L = true) : splitNlNl L = [L] := by
  induction L with
  | nil => rfl
  | cons c rest ih =>
    have hsafe : ¬(c = '\n' ∧ rest.head? = some '\n') := by
      rintro ⟨rfl, hh⟩
      cases rest with
      | nil => simp at hh
      | cons d rt =>
        injection hh with h1
        rw [h1] at h
        rw [show noNlNl ('\n' :: '\n' :: rt) = false from rfl] at h
        simp at h
    rw [splitNlNl_cons_safe hsafe, ih (noNlNl_tail h)]

theorem splitNlNl_append {x rest : List Char} (hx : noNlNl x = true)
    (hlast : x.getLast? ≠ some '\n') :
    splitNlNl (x ++ '\n' :: '\n' :: rest) = x :: splitNlNl rest := by
  induction x with
  | nil => rfl
  | cons c x2 ih =>
    have hsafe : ¬(c = '\n' ∧ (x2 ++ '\n' :: '\n' :: rest).head? = some '\n') := by
      rintro ⟨rfl, hh⟩
      cases x2 with
      | nil =>
        simp at hlast
      | cons d x3 =>
        rw [List.cons_append] at hh
        injection hh with h1
        rw [h1] at hx
        rw [show noNlNl ('\n' :: '\n' :: x3) = false from rfl] at hx
        simp at hx
    rw [List.cons_append, splitNlNl_cons_safe hsafe]
    cases hx2 : x2 with
    | nil =>
      rw [show ([] ++ '\n' :: '\n' :: rest) = '\n' :: '\n' :: rest from rfl]
      rfl
    | cons d x3 =>
      rw [← hx2, ih (by rw [hx2] at hx ⊢; exact noNlNl_tail hx)
        (by rw [hx2] at hlast ⊢; rwa [List.getLast?_cons_cons] at hlast)]

theorem digitChar_digit {n : ℕ} (h : n < 10) : isDigitC (Nat.digitChar n) = true := by
  interval_cases n <;> decide

theorem toDigitsCore_digits :
    ∀ (fuel n : ℕ) (acc : List Char), (∀ c ∈ acc, isDigitC c = true) →
      ∀ c ∈ Nat.toDigitsCore 10 fuel n acc, isDigitC c = true := by
  intro fuel
  induction fuel with
  | zero => intro n acc hacc c hc; exact hacc c hc
  | succ f ih =>
    intro n acc hacc c hc
    simp only [Nat.toDigitsCore] at hc
    have hmod : n % 10 < 10 := Nat.mod_lt _ (by norm_num)
    by_cases hz : n / 10 = 0
    · rw [if_pos hz] at hc
      rcases List.mem_cons.1 hc with rfl | hc
      · exact digitChar_digit hmod
      · exact hacc c hc
    · rw [if_neg hz] at hc
      refine ih (n / 10) (Nat.digitChar (n % 10) :: acc) ?_ c hc
      intro c2 hc2
      rcases List.mem_cons.1 hc2 with rfl | hc2
      · exact digitChar_digit hmod
      · exact hacc c2 hc2

theorem repr_digits (n : ℕ) : ∀ c ∈ (Nat.repr n).data, isDigitC c = true := by
  have h : (Nat.repr n).data = Nat.toDigitsCore 10 (n + 1) n [] := rfl
  rw [h]
  exact toDigitsCore_digits (n + 1) n [] (by simp)

theorem toDigitsCore_ne_nil :
    ∀ (fuel n : ℕ) (acc : List Char), acc ≠ [] → Nat.toDigitsCore 10 fuel n acc ≠ [] := by
  intro fuel
  induction fuel with
  | zero => intro n acc hacc; exact hacc
  | succ f ih =>
    intro n acc hacc
    simp only [Nat.toDigitsCore]
    by_cases hz : n / 10 = 0
    · rw [if_pos hz]
      simp
    · rw [if_neg hz]
      exact ih (n / 10) _ (by simp)

theorem repr_ne_nil (n : ℕ) : (Nat.repr n).data ≠ [] := by
  have h : (Nat.repr n).data = Nat.toDigitsCore 10 (n + 1) n [] := rfl
  rw [h]
  simp only [Nat.toDigitsCore]
  by_cases hz : n / 10 = 0
  · rw [if_pos hz]
    simp
  · rw [if_neg hz]
    exact toDigitsCore_ne_nil n (n / 10) _ (by simp)

theorem repr_head_digit (n : ℕ) :
    ∃ d rest, (Nat.repr n).data = d :: rest ∧ isDigitC d = true := by
  cases hdata : (Nat.repr n).data with
  | nil => exact absurd hdata (repr_ne_nil n)
  | cons d rest =>
    refine ⟨d, rest, rfl, repr_digits n d ?_⟩
    rw [hdata]
    exact List.mem_cons_self d rest

/-- Characters of an emitted SRT timestamp line (commas as millisecond
separators): no newline, and the line starts with a digit. -/
theorem srt_tsline_chars {s e : String} (hs : isCanonicalTs s = true)
    (he : isCanonicalTs e = true) :
    (∀ ch ∈ dotToComma s.data ++ " --> ".data ++ dotToComma e.data, ch ≠ '\n') ∧
    (∃ d r2, dotToComma s.data ++ " --> ".data ++ dotToComma e.data = d :: r2 ∧
      isDigitC d = true) := by
  obtain ⟨s1, s2, s3, s4, s5, s6, s7, s8, s9, -, hscomma, hs1, hs2, hs3, hs4, hs5, hs6, hs7,
    hs8, hs9⟩ := canonical_dotToComma hs
  obtain ⟨e1, e2, e3, e4, e5, e6, e7, e8, e9, -, hecomma, he1, he2, he3, he4, he5, he6, he7,
    he8, he9⟩ := canonical_dotToComma he
  constructor
  · intro ch hch
    rcases List.mem_append.1 hch with h1 | h1
    · rcases List.mem_append.1 h1 with h2 | h2
      · rw [hscomma] at h2
        simp only [List.mem_cons, List.not_mem_nil, or_false] at h2
        rcases h2 with rfl | rfl | rfl | rfl | rfl | rfl | rfl | rfl | rfl | rfl | rfl | rfl
        · exact isDigitC_ne hs1 '\n' (Or.inl (by decide))
        · exact isDigitC_ne hs2 '\n' (Or.inl (by decide))
        · decide
        · exact isDigitC_ne hs3 '\n' (Or.inl (by decide))
        · exact isDigitC_ne hs4 '\n' (Or.inl (by decide))
        · decide
        · exact isDigitC_ne hs5 '\n' (Or.inl (by decide))
        · exact isDigitC_ne hs6 '\n' (Or.inl (by decide))
        · decide
        · exact isDigitC_ne hs7 '\n' (Or.inl (by decide))
        · exact isDigitC_ne hs8 '\n' (Or.inl (by decide))
        · exact isDigitC_ne hs9 '\n' (Or.inl (by decide))
      · have harrow : ∀ ch ∈ (" --> " : String).data, ch ≠ '\n' := by decide
        exact harrow ch h2
    · rw [hecomma] at h1
      simp only [List.mem_cons, List.not_mem_nil, or_false] at h1
      rcases h1 with rfl | rfl | rfl | rfl | rfl | rfl | rfl | rfl | rfl | rfl | rfl | rfl
      · exact isDigitC_ne he1 '\n' (Or.inl (by decide))
      · exact isDigitC_ne he2 '\n' (Or.inl (by decide))
      · decide
      · exact isDigitC_ne he3 '\n' (Or.inl (by decide))
      · exact isDigitC_ne he4 '\n' (Or.inl (by decide))
      · decide
      · exact isDigitC_ne he5 '\n' (Or.inl (by decide))
      · exact isDigitC_ne he6 '\n' (Or.inl (by decide))
      · decide
      · exact isDigitC_ne he7 '\n' (Or.inl (by decide))
      · exact isDigitC_ne he8 '\n' (Or.inl (by decide))
      · exact isDigitC_ne he9 '\n' (Or.inl (by decide))
  · rw [hscomma]
    exact ⟨s1, _, rfl, hs1⟩

/-- Parsing one emitted SRT block recovers the caption record. -/
theorem parseSRTBlock_clean {c : RawCaption} (k : ℕ) (hs : isCanonicalTs c.start = true)
    (he : isCanonicalTs c.end_ = true) (ht : cleanTextBase c.text = true) :
    parseSRTBlock ((Nat.repr k).data ++ '\n' ::
      ((dotToComma c.start.data ++ " --> ".data ++ dotToComma c.end_.data) ++
        '\n' :: c.text.data)) = some c := by
  obtain ⟨htne, htstrip, hall⟩ := cleanTextBase_elim ht
  obtain ⟨rd, rr, hrdata, hrdig⟩ := repr_head_digit k
  obtain ⟨htsnl, -⟩ := srt_tsline_chars hs he
  have hassoc : (Nat.repr k).data ++ '\n' ::
      ((dotToComma c.start.data ++ " --> ".data ++ dotToComma c.end_.data) ++
        '\n' :: c.text.data) =
      ((Nat.repr k).data ++ '\n' ::
        ((dotToComma c.start.data ++ " --> ".data ++ dotToComma c.end_.data) ++ ['\n'])) ++
        c.text.data := by
    simp
  have hstrip : pyStripL ((Nat.repr k).data ++ '\n' ::
      ((dotToComma c.start.data ++ " --> ".data ++ dotToComma c.end_.data) ++
        '\n' :: c.text.data)) =
      (Nat.repr k).data ++ '\n' ::
        ((dotToComma c.start.data ++ " --> ".data ++ dotToComma c.end_.data) ++
          '\n' :: c.text.data) := by
    refine pyStripL_eq_self_of_ends (fun ch hch => ?_) (fun ch hch => ?_)
    · rw [hrdata] at hch
      injection hch with h1
      rw [← h1]
      exact isDigitC_not_ws hrdig
    · rw [hassoc, List.getLast?_append_of_ne_nil _ htne] at hch
      exact strip_self_getLast htstrip htne ch hch
  unfold parseSRTBlock
  rw [hstrip]
  rw [splitChar_append_sep (by
    intro hmem
    exact (isDigitC_ne (repr_digits k _ hmem) '\n' (Or.inl (by decide))) rfl)]
  rw [splitChar_append_sep (by intro hmem; exact htsnl '\n' hmem rfl)]
  rw [splitChar_not_mem (by intro hmem; exact ((hall '\n' hmem).1 rfl))]
  simp only [matchTimestampLine_comma hs he]
  rw [show joinWith [' '] [c.text.data] = c.text.data from rfl]
  rw [htstrip, htmlUnescape_no_amp (fun ch hm => (hall ch hm).2.1),
    stripTags_no_lt (fun ch hm => (hall ch hm).2.2), htstrip, stringMk_data]

theorem joinWith_cons2 (sep : List Char) (x : List Char) {xs : List (List Char)}
    (h : xs ≠ []) : joinWith sep (x :: xs) = x ++ sep ++ joinWith sep xs := by
  cases xs with
  | nil => exact absurd rfl h
  | cons y t => rw [joinWith]; simp

theorem joinNlNl_ne_nil {b : List Char} (bs : List (List Char)) (hb : b ≠ []) :
    joinWith ['\n', '\n'] (b :: bs) ≠ [] := by
  cases bs with
  | nil => exact hb
  | cons y t =>
    rw [joinWith_cons2 _ _ (List.cons_ne_nil y t)]
    simp [hb]

theorem joinNlNl_getLast_ws :
    ∀ bs : List (List Char),
      (∀ b ∈ bs, b ≠ [] ∧ ∀ c, b.getLast? = some c → isPyWs c = false) → bs ≠ [] →
      ∀ c, (joinWith ['\n', '\n'] bs).getLast? = some c → isPyWs c = false := by
  intro bs
  induction bs with
  | nil => intro _ h; exact absurd rfl h
  | cons b rest ih =>
    intro hall _ c hc
    cases rest with
    | nil => exact (hall b (List.mem_cons_self b [])).2 c hc
    | cons b2 t =>
      rw [joinWith_cons2 _ _ (List.cons_ne_nil b2 t)] at hc
      have hjr : joinWith ['\n', '\n'] (b2 :: t) ≠ [] :=
        joinNlNl_ne_nil t (hall b2 (List.mem_cons_of_mem b (List.mem_cons_self b2 t))).1
      rw [List.getLast?_append_of_ne_nil _ hjr] at hc
      exact ih (fun x hx => hall x (List.mem_cons_of_mem b hx)) (List.cons_ne_nil b2 t) c hc

theorem splitNlNl_blocks :
    ∀ bs : List (List Char),
      (∀ b ∈ bs, noNlNl b = true ∧ b.getLast? ≠ some '\n') → bs ≠ [] →
      splitNlNl (joinWith ['\n', '\n'] bs) = bs := by
  intro bs
  induction bs with
  | nil => intro _ h; exact absurd rfl h
  | cons b rest ih =>
    intro hall _
    cases rest with
    | nil => exact splitNlNl_no (hall b (List.mem_cons_self b [])).1
    | cons b2 t =>
      rw [joinWith_cons2 _ _ (List.cons_ne_nil b2 t), List.append_assoc]
      rw [show (['\n', '\n'] ++ joinWith ['\n', '\n'] (b2 :: t)) =
        '\n' :: '\n' :: joinWith ['\n', '\n'] (b2 :: t) from rfl]
      rw [splitNlNl_append (hall b (List.mem_cons_self b (b2 :: t))).1
        (hall b (List.mem_cons_self b (b2 :: t))).2]
      rw [ih (fun x hx => hall x (List.mem_cons_of_mem b hx)) (List.cons_ne_nil b2 t)]

/-- The structural facts about one emitted SRT block needed to split the
joined output back into blocks. -/
theorem srtBlock_facts {c : RawCaption} (k : ℕ) (hs : isCanonicalTs c.start = true)
    (he : isCanonicalTs c.end_ = true) (ht : cleanTextBase c.text = true) :
    ((Nat.repr k).data ++ '\n' ::
        ((dotToComma c.start.data ++ " --> ".data ++ dotToComma c.end_.data) ++
          '\n' :: c.text.data)) ≠ [] ∧
    noNlNl ((Nat.repr k).data ++ '\n' ::
        ((dotToComma c.start.data ++ " --> ".data ++ dotToComma c.end_.data) ++
          '\n' :: c.text.data)) = true ∧
    (∀ ch, ((Nat.repr k).data ++ '\n' ::
        ((dotToComma c.start.data ++ " --> ".data ++ dotToComma c.end_.data) ++
          '\n' :: c.text.data)).getLast? = some ch → isPyWs ch = false) ∧
    (∃ d r2, ((Nat.repr k).data ++ '\n' ::
        ((dotToComma c.start.data ++ " --> ".data ++ dotToComma c.end_.data) ++
          '\n' :: c.text.data)) = d :: r2 ∧ isDigitC d = true) := by
  obtain ⟨htne, htstrip, hall⟩ := cleanTextBase_elim ht
  obtain ⟨rd, rr, hrdata, hrdig⟩ := repr_head_digit k
  obtain ⟨htsnl, td, tr, htshead, htddig⟩ := srt_tsline_chars hs he
  have hassoc : (Nat.repr k).data ++ '\n' ::
      ((dotToComma c.start.data ++ " --> ".data ++ dotToComma c.end_.data) ++
        '\n' :: c.text.data) =
      ((Nat.repr k).data ++ '\n' ::
        ((dotToComma c.start.data ++ " --> ".data ++ dotToComma c.end_.data) ++ ['\n'])) ++
        c.text.data := by
    simp
  refine ⟨?_, ?_, ?_, ?_⟩
  · rw [hrdata]
    simp
  · refine noNlNl_append_sep
      (fun ch hm => isDigitC_ne (repr_digits k ch hm) '\n' (Or.inl (by decide))) ?_ ?_
    · refine noNlNl_append_sep (fun ch hm => htsnl ch hm) ?_ ?_
      · exact noNlNl_of_no_nl (fun ch hm => (hall ch hm).1)
      · intro ch hch
        cases hdata : c.text.data with
        | nil => exact absurd hdata htne
        | cons t0 ttr =>
          rw [hdata] at hch
          injection hch with h1
          rw [← h1]
          exact (hall t0 (by rw [hdata]; exact List.mem_cons_self t0 ttr)).1
    · intro ch hch
      rw [htshead] at hch
      rw [show ((td :: tr) ++ '\n' :: c.text.data).head? = some td from rfl] at hch
      injection hch with h1
      rw [← h1]
      exact isDigitC_ne htddig '\n' (Or.inl (by decide))
  · intro ch hch
    rw [hassoc, List.getLast?_append_of_ne_nil _ htne] at hch
    exact strip_self_getLast htstrip htne ch hch
  · rw [hrdata]
    exact ⟨rd, _, rfl, hrdig⟩

/-- The emitted SRT text is the double-newline join of the blocks, with a
trailing newline. -/
theorem joinWith_srt :
    ∀ (l : List RawCaption) (k : ℕ), l ≠ [] →
      joinWith ['\n'] ((List.enumFrom k l).flatMap (fun p =>
        [(Nat.repr (p.1 + 1)).data,
         dotToComma p.2.start.data ++ " --> ".data ++ dotToComma p.2.end_.data,
         p.2.text.data, []])) =
      joinWith ['\n', '\n'] ((List.enumFrom k l).map (fun p =>
        (Nat.repr (p.1 + 1)).data ++ '\n' ::
          ((dotToComma p.2.start.data ++ " --> ".data ++ dotToComma p.2.end_.data) ++
            '\n' :: p.2.text.data))) ++ ['\n'] := by
  intro l
  induction l with
  | nil => intro k h; exact absurd rfl h
  | cons c l ih =>
    intro k _
    cases l with
    | nil => simp [joinWith]
    | cons c2 t =>
      have hflat : (List.enumFrom (k + 1) (c2 :: t)).flatMap (fun p =>
          [(Nat.repr (p.1 + 1)).data,
           dotToComma p.2.start.data ++ " --> ".data ++ dotToComma p.2.end_.data,
           p.2.text.data, []]) ≠ [] := by
        rw [show List.enumFrom (k + 1) (c2 :: t) =
          (k + 1, c2) :: List.enumFrom (k + 2) t from rfl, List.flatMap_cons]
        simp
      have hmapne : (List.enumFrom (k + 1) (c2 :: t)).map (fun p =>
          (Nat.repr (p.1 + 1)).data ++ '\n' ::
            ((dotToComma p.2.start.data ++ " --> ".data ++ dotToComma p.2.end_.data) ++
              '\n' :: p.2.text.data)) ≠ [] := by
        rw [show List.enumFrom (k + 1) (c2 :: t) =
          (k + 1, c2) :: List.enumFrom (k + 2) t from rfl, List.map_cons]
        simp
      rw [show List.enumFrom k (c :: c2 :: t) =
        (k, c) :: List.enumFrom (k + 1) (c2 :: t) from rfl, List.flatMap_cons, List.map_cons]
      simp only [List.cons_append, List.nil_append]
      rw [joinWith_cons2 _ _ (by simp), joinWith_cons2 _ _ (by simp),
        joinWith_cons2 _ _ (by simp), joinWith_cons2 _ _ hflat]
      rw [ih (k + 1) (List.cons_ne_nil c2 t)]
      rw [joinWith_cons2 _ _ hmapne]
      simp

theorem enumFrom_snd_mem {α : Type} :
    ∀ (m : List α) (k : ℕ) (p : ℕ × α), p ∈ List.enumFrom k m → p.2 ∈ m := by
  intro m
  induction m with
  | nil => intro k p hp; simp [List.enumFrom] at hp
  | cons c t ih =>
    intro k p hp
    rw [show List.enumFrom k (c :: t) = (k, c) :: List.enumFrom (k + 1) t from rfl] at hp
    rcases List.mem_cons.1 hp with rfl | hp
    · exact List.mem_cons_self c t
    · exact List.mem_cons_of_mem c (ih (k + 1) p hp)

theorem srtBlocks_facts {m : List RawCaption}
    (hclean : ∀ r ∈ m, isCanonicalTs r.start = true ∧ isCanonicalTs r.end_ = true ∧
      cleanTextBase r.text = true) (k : ℕ) :
    ∀ b ∈ (List.enumFrom k m).map srtBlockOf,
      b ≠ [] ∧ noNlNl b = true ∧ (∀ ch, b.getLast? = some ch → isPyWs ch = false) ∧
        (∃ d r2, b = d :: r2 ∧ isDigitC d = true) := by
  intro b hb
  rw [List.mem_map] at hb
  obtain ⟨p, hp, rfl⟩ := hb
  obtain ⟨h1, h2, h3⟩ := hclean p.2 (enumFrom_snd_mem m k p hp)
  exact srtBlock_facts (p.1 + 1) h1 h2 h3

theorem joinNlNl_head_digit {b : List Char} (bs : List (List Char)) {d : Char}
    {r : List Char} (hb : b = d :: r) :
    (joinWith ['\n', '\n'] (b :: bs)).head? = some d := by
  cases bs with
  | nil => subst hb; rfl
  | cons y t =>
    rw [joinWith_cons2 _ _ (List.cons_ne_nil y t)]
    subst hb
    rfl

theorem filterMap_srtBlocks :
    ∀ (m : List RawCaption) (k : ℕ),
      (∀ r ∈ m, isCanonicalTs r.start = true ∧ isCanonicalTs r.end_ = true ∧
        cleanTextBase r.text = true) →
      List.filterMap parseSRTBlock ((List.enumFrom k m).map srtBlockOf) = m := by
  intro m
  induction m with
  | nil => intro k _; rfl
  | cons c t ih =>
    intro k hclean
    obtain ⟨h1, h2, h3⟩ := hclean c (List.mem_cons_self c t)
    have hpb : parseSRTBlock (srtBlockOf (k, c)) = some c :=
      parseSRTBlock_clean (k + 1) h1 h2 h3
    rw [show List.enumFrom k (c :: t) = (k, c) :: List.enumFrom (k + 1) t from rfl,
      List.map_cons]
    simp only [List.filterMap_cons, hpb]
    rw [ih (k + 1) (fun r hr => hclean r (List.mem_cons_of_mem c hr))]

/-- SRT raw round trip: on canonical, clean captions, splitting the emitted
SRT text back into blocks and parsing each block recovers the input list. -/
theorem parseSRTRecords_convert {l : List RawCaption}
    (hclean : ∀ r ∈ l, isCanonicalTs r.start = true ∧ isCanonicalTs r.end_ = true ∧
      cleanTextBase r.text = true) :
    parseSRTRecords (convert_to_srt l) = l := by
  cases l with
  | nil => rfl
  | cons c0 t0 =>
    have hfacts := srtBlocks_facts hclean 0
    unfold parseSRTRecords convert_to_srt
    rw [data_mk]
    rw [show (c0 :: t0).enum = List.enumFrom 0 (c0 :: t0) from rfl]
    rw [joinWith_srt (c0 :: t0) 0 (List.cons_ne_nil c0 t0)]
    have hmape : List.map (fun p : ℕ × RawCaption =>
        (Nat.repr (p.1 + 1)).data ++ '\n' ::
          ((dotToComma p.2.start.data ++ " --> ".data ++ dotToComma p.2.end_.data) ++
            '\n' :: p.2.text.data)) (List.enumFrom 0 (c0 :: t0)) =
        List.map srtBlockOf (List.enumFrom 0 (c0 :: t0)) := rfl
    rw [hmape]
    have hcons : List.map srtBlockOf (List.enumFrom 0 (c0 :: t0)) =
        srtBlockOf (0, c0) :: List.map srtBlockOf (List.enumFrom 1 t0) := rfl
    have hb0 : srtBlockOf (0, c0) ∈ List.map srtBlockOf (List.enumFrom 0 (c0 :: t0)) := by
      rw [hcons]
      exact List.mem_cons_self _ _
    obtain ⟨hb0ne, -, -, d0, r0, hb0eq, hd0⟩ := hfacts (srtBlockOf (0, c0)) hb0
    have hjne : joinWith ['\n', '\n']
        (List.map srtBlockOf (List.enumFrom 0 (c0 :: t0))) ≠ [] := by
      rw [hcons]
      exact joinNlNl_ne_nil _ hb0ne
    have hjhead : ∀ ch, (joinWith ['\n', '\n']
        (List.map srtBlockOf (List.enumFrom 0 (c0 :: t0)))).head? = some ch →
        isPyWs ch = false := by
      intro ch hch
      rw [hcons, joinNlNl_head_digit _ hb0eq] at hch
      injection hch with hh
      rw [← hh]
      exact isDigitC_not_ws hd0
    have hjlast : ∀ ch, (joinWith ['\n', '\n']
        (List.map srtBlockOf (List.enumFrom 0 (c0 :: t0)))).getLast? = some ch →
        isPyWs ch = false := by
      refine joinNlNl_getLast_ws _ (fun b hb => ⟨(hfacts b hb).1, (hfacts b hb).2.2.1⟩) ?_
      rw [hcons]
      exact List.cons_ne_nil _ _
    rw [pyStripL_append_nl hjne hjhead hjlast]
    rw [splitNlNl_blocks _ (fun b hb => ⟨(hfacts b hb).2.1,
      fun hl => absurd ((hfacts b hb).2.2.1 '\n' hl) (by decide)⟩)
      (by rw [hcons]; exact List.cons_ne_nil _ _)]
    exact filterMap_srtBlocks (c0 :: t0) 0 hclean

/-- C5 (counterexample): the round-trip contract fails on an already-clean
caption list. The single record with text "42" is a fixed point of
reconstruction (so it is "a list as produced by reconstruction"), yet
emitting it with `convert_to_vtt` and parsing back with `parse_vtt_to_text`
returns the empty list: inside an open cue the line "42" matches the
cue-identifier pattern (1-6 digits) and is skipped, so the record's text is
lost. -/
theorem claim_C5_round_trip_counterexample :
    deduplicate_overlapping_captions
        [⟨"00:00:00.000", "00:00:01.000", "42"⟩] =
      [⟨"00:00:00.000", "00:00:01.000", "42"⟩] ∧
    parse_vtt_to_text (convert_to_vtt
        [⟨"00:00:00.000", "00:00:01.000", "42"⟩]) = [] := by
  decide

/-- C5 (amended): for every caption list that is a fixed point of the
reconstruction step and whose records carry canonical `HH:MM:SS.mmm`
timestamps and clean text (non-empty, strip-fixed, free of newlines,
ampersands and angle brackets, and not shaped like a cue identifier, a
`WEBVTT`/`NOTE` header or a timestamp line), parsing the text produced by
`convert_to_vtt` through `parse_vtt_to_text` reproduces exactly the same
ordered (start, end, text) triples, and the same holds through
`convert_to_srt` and `parse_srt_to_text` (the comma separators written by
the SRT emitter are normalized back to periods by the parser). -/
theorem claim_C5_amended_round_trip {l : List RawCaption}
    (hded : deduplicate_overlapping_captions l = l)
    (hclean : ∀ r ∈ l, isCanonicalTs r.start = true ∧ isCanonicalTs r.end_ = true ∧
      cleanTextVtt r.text = true) :
    parse_vtt_to_text (convert_to_vtt l) = l ∧
      parse_srt_to_text (convert_to_srt l) = l := by
  have hbase : ∀ r ∈ l, isCanonicalTs r.start = true ∧ isCanonicalTs r.end_ = true ∧
      cleanTextBase r.text = true := by
    intro r hr
    obtain ⟨h1, h2, h3⟩ := hclean r hr
    refine ⟨h1, h2, ?_⟩
    unfold cleanTextVtt at h3
    simp only [Bool.and_eq_true] at h3
    exact h3.1.1.1.1
  constructor
  · unfold parse_vtt_to_text
    rw [parseVTTRecords_convert l hclean]
    rw [show recoverReconstruction dedupExc l = deduplicate_overlapping_captions l from rfl]
    exact hded
  · unfold parse_srt_to_text
    rw [parseSRTRecords_convert hbase]
    rw [show recoverReconstruction dedupExc l = deduplicate_overlapping_captions l from rfl]
    exact hded

/-- Witness for the amended C5 round trip at a concrete clean two-caption
list. -/
theorem claim_C5_amended_round_trip_witness :
    (deduplicate_overlapping_captions
        [⟨"00:00:01.000", "00:00:02.000", "Hello world"⟩,
         ⟨"00:00:03.000", "00:00:04.500", "Second line"⟩] =
      [⟨"00:00:01.000", "00:00:02.000", "Hello world"⟩,
       ⟨"00:00:03.000", "00:00:04.500", "Second line"⟩]) ∧
    (parse_vtt_to_text (convert_to_vtt
        [⟨"00:00:01.000", "00:00:02.000", "Hello world"⟩,
         ⟨"00:00:03.000", "00:00:04.500", "Second line"⟩]) =
      [⟨"00:00:01.000", "00:00:02.000", "Hello world"⟩,
       ⟨"00:00:03.000", "00:00:04.500", "Second line"⟩] ∧
     parse_srt_to_text (convert_to_srt
        [⟨"00:00:01.000", "00:00:02.000", "Hello world"⟩,
         ⟨"00:00:03.000", "00:00:04.500", "Second line"⟩]) =
      [⟨"00:00:01.000", "00:00:02.000", "Hello world"⟩,
       ⟨"00:00:03.000", "00:00:04.500", "Second line"⟩]) :=
  ⟨by decide, claim_C5_amended_round_trip (by decide) (by decide)⟩

end YTCap
